import Mathlib

/-!
Verification of the Frequen-C backend real-time session coordination engine.

The definitions below are a shallow embedding of the relevant source:
  - src/socketHandler.ts          (event handlers, getOrderedQueue, advanceTrack)
  - src/middleware/socketRateLimiter.ts  (canDo, EVENT_COOLDOWNS)
  - src/routes/sessionRoutes.ts   (formatQueueTrack)
  - src/database.ts               (row shapes of the sessions and queue_tracks tables)

The persisted SQLite store is modelled as lists of rows; the in-memory
playback map and the rate-limiter cooldown table are association lists.
Each socket event handler becomes a pure function from the store (plus the
payload and, where the code reads Date.now(), an explicit clock value) to a
HandlerResult: the new store, the socket emissions in order, and an optional
fault recording an uncaught JavaScript exception thrown inside the handler.
-/

namespace FrequenC

/-- Row of the queue_tracks table (src/database.ts). voted_by is stored as a
JSON object mapping voter user id to vote direction; it is modelled directly
as an association list whose keys are unique (a parsed JSON object cannot
hold a duplicate key). -/
structure QueueTrack where
  id : String
  sessionId : String
  title : String
  artist : String
  album : Option String
  albumArt : Option String
  previewUrl : Option String
  duration : Int
  source : String
  sourceId : Option String
  addedById : String
  addedByUsername : String
  votes : Int
  votedBy : List (String × Int)
  status : String
  position : Int
  isCurrent : Bool
deriving Repr, DecidableEq

/-- Row of the sessions table, restricted to the columns the socket handlers
read (room_mode and host_id). -/
structure Session where
  id : String
  hostId : String
  roomMode : String
deriving Repr, DecidableEq

/-- In-memory playback state per session (socketHandler.ts, PlaybackState). -/
structure PlaybackState where
  state : String
  position : Int
  timestamp : Nat
  trackId : Option String
deriving Repr, DecidableEq

/-- The store a socket event handler can touch: the sessions and queue_tracks
tables plus the in-memory roomPlaybackState map. -/
structure DBState where
  sessions : List Session
  queueTracks : List QueueTrack
  playback : List (String × PlaybackState)
deriving Repr, DecidableEq

/-- The track object of an add-to-queue payload. JavaScript fills missing
fields with defaults at insert time (track.album || null, track.duration || 30,
track.source || itunes); absent-or-falsy payload fields are modelled as none. -/
structure TrackInput where
  title : String
  artist : String
  album : Option String
  albumArt : Option String
  previewUrl : Option String
  duration : Option Int
  source : Option String
  sourceId : Option String
deriving Repr, DecidableEq

/-- Server-to-client notices produced by the embedded handlers. -/
inductive Msg where
  | queueUpdated (tracks : List QueueTrack)
  | trackChanged (track : Option QueueTrack)
  | trackPending (track : QueueTrack)
  | trackApproved (trackId : String) (track : QueueTrack)
  | trackRejected (trackId : String)
  | errorMsg (message : String)
deriving Repr, DecidableEq

/-- Destination of an emission: io.to(room).emit broadcasts to a room,
socket.emit answers the calling socket alone. -/
inductive Emit where
  | toRoom (sessionId : String) (msg : Msg)
  | toCaller (msg : Msg)
deriving Repr, DecidableEq

/-- Result of running one event handler: the new store, the emissions in
program order, and an uncaught exception if the handler threw one. -/
structure HandlerResult where
  state : DBState
  emits : List Emit
  fault : Option String
deriving Repr, DecidableEq

/-- Dynamically typed payload value, as far as the vote-track handler
inspects it (direction : number | string, possibly absent). -/
inductive JsVal where
  | num (n : Int)
  | str (s : String)
  | undef
deriving Repr, DecidableEq

/-- SELECT from sessions WHERE id = ? (id is the primary key, so the first
matching row is the row). -/
def findSession (st : DBState) (sid : String) : Option Session :=
  st.sessions.find? (fun s => s.id == sid)

/-- SELECT from queue_tracks WHERE id = ?. -/
def findTrack (st : DBState) (tid : String) : Option QueueTrack :=
  st.queueTracks.find? (fun t => t.id == tid)

/-- formatQueueTrack (src/routes/sessionRoutes.ts). It immediately reads
row.id, so applying it to the undefined result of a failed lookup throws a
TypeError; the formatted payload itself is a field projection of the row and
is modelled by the row. -/
def formatQueueTrack (row : Option QueueTrack) : Except String QueueTrack :=
  match row with
  | none => Except.error "TypeError: cannot read properties of undefined"
  | some r => Except.ok r

/-- Stable insertion of a row into a list sorted by ascending position
(ORDER BY position ASC). -/
def insertByPos (t : QueueTrack) : List QueueTrack → List QueueTrack
  | [] => [t]
  | x :: xs => if t.position < x.position then t :: x :: xs else x :: insertByPos t xs

/-- ORDER BY position ASC, as a stable sort. -/
def sortByPos (l : List QueueTrack) : List QueueTrack :=
  l.foldr insertByPos []

/-- SELECT * FROM queue_tracks WHERE session_id = ? AND is_current = 0 AND
status = approved ORDER BY position ASC (getOrderedQueue, socketHandler.ts). -/
def approvedRows (st : DBState) (sid : String) : List QueueTrack :=
  sortByPos (st.queueTracks.filter
    (fun t => t.sessionId == sid && !t.isCurrent && t.status == "approved"))

/-- The userOrder array of getOrderedQueue: scanning the position-ordered rows,
push each adder id the first time it is seen (the if (!byUser[id]) branch of
the for-loop), yielding adder ids in order of each adder's first row. -/
def userOrder (rows : List QueueTrack) : List String :=
  rows.foldl
    (fun acc r => if acc.contains r.addedById then acc else acc ++ [r.addedById]) []

/-- The byUser map of getOrderedQueue, read off in userOrder order: one queue
per adder, preserving the position order of the adder's rows. -/
def groupQueues (rows : List QueueTrack) : List (List QueueTrack) :=
  (userOrder rows).map (fun uid => rows.filter (fun t => t.addedById == uid))

/-- One round of the campfire interleave: the element at index round of every
per-adder queue that still has one (the inner for-loop of the while loop). -/
def roundAt (qs : List (List α)) (r : Nat) : List α :=
  qs.filterMap (fun q => q[r]?)

/-- Number of rounds the while loop of getOrderedQueue executes before a
round adds nothing: the maximum per-adder queue length. -/
def maxRounds (qs : List (List α)) : Nat :=
  (qs.map List.length).foldr Nat.max 0

/-- Concatenation of n successive rounds starting at round r. -/
def roundsFrom (qs : List (List α)) : Nat → Nat → List α
  | _, 0 => []
  | r, n + 1 => roundAt qs r ++ roundsFrom qs (r + 1) n

/-- The campfire while loop of getOrderedQueue: it pushes rounds 0, 1, ... and
stops after the first round that adds nothing, which is round maxRounds qs
(every earlier round is nonempty, every later round is empty), so its output
is exactly the first maxRounds qs rounds concatenated. -/
def interleave (qs : List (List α)) : List α :=
  roundsFrom qs 0 (maxRounds qs)

/-- The campfire branch of getOrderedQueue. -/
def campfireOrder (rows : List QueueTrack) : List QueueTrack :=
  interleave (groupQueues rows)

/-- The open-floor comparator (b.votes - a.votes || a.position - b.position):
a precedes b when a has strictly more votes, or equal votes and a position
not after b. -/
def openFloorLe (a b : QueueTrack) : Bool :=
  b.votes < a.votes || (a.votes == b.votes && a.position ≤ b.position)

/-- Stable insertion for the open-floor sort. -/
def insertVotes (t : QueueTrack) : List QueueTrack → List QueueTrack
  | [] => [t]
  | x :: xs => if openFloorLe x t then x :: insertVotes t xs else t :: x :: xs

/-- The open-floor branch: sort by votes descending, position ascending as
tiebreaker (a stable sort, as the V8 Array.prototype.sort is). -/
def sortVotes (l : List QueueTrack) : List QueueTrack :=
  l.foldr insertVotes []

/-- getOrderedQueue (socketHandler.ts): mode-aware ordering of the approved,
not-current rows of one session. A missing session or a falsy room_mode falls
back to campfire, matching session?.room_mode || campfire. -/
def getOrderedQueue (st : DBState) (sid : String) : List QueueTrack :=
  let mode := match findSession st sid with
    | some s => if s.roomMode == "" then "campfire" else s.roomMode
    | none => "campfire"
  let rows := approvedRows st sid
  if mode == "campfire" then campfireOrder rows
  else if mode == "openFloor" || mode == "open_floor" then sortVotes rows
  else rows

/-- broadcastQueue (socketHandler.ts): emit queue-updated with the recomputed
ordering to the whole room. -/
def broadcastQueue (st : DBState) (sid : String) : Emit :=
  Emit.toRoom sid (Msg.queueUpdated (getOrderedQueue st sid))

/-- MAX over a list of integers, none when the list is empty. -/
def listMaxInt : List Int → Option Int
  | [] => none
  | p :: ps => match listMaxInt ps with
    | none => some p
    | some m => some (max p m)

/-- SELECT COALESCE(MAX(position), -1) + 1 over the session's rows: the
position assigned by the add-to-queue handler. -/
def nextPosition (st : DBState) (sid : String) : Int :=
  (match listMaxInt ((st.queueTracks.filter
      (fun t => t.sessionId == sid)).map (fun t => t.position)) with
    | none => -1
    | some m => m) + 1

/-- The add-to-queue handler (socketHandler.ts). freshId stands for the
generated qt_ uuid. The users.tracks_added counter lives outside the embedded
store and is not modelled. When the session row is missing the INSERT
violates the session_id foreign key (foreign_keys = ON), better-sqlite3
throws, and the catch block answers the caller with an error notice, leaving
the store untouched. -/
def addToQueue (st : DBState) (callerId callerName sid : String)
    (tr : TrackInput) (freshId : String) : HandlerResult :=
  let position := nextPosition st sid
  match findSession st sid with
  | none =>
      { state := st
        emits := [Emit.toCaller (Msg.errorMsg "Failed to add track to queue")]
        fault := none }
  | some s =>
      let isHost := s.hostId == callerId
      let status := if s.roomMode == "spotlight" && !isHost then "pending" else "approved"
      let row : QueueTrack :=
        { id := freshId, sessionId := sid, title := tr.title, artist := tr.artist
          album := tr.album, albumArt := tr.albumArt, previewUrl := tr.previewUrl
          duration := tr.duration.getD 30, source := tr.source.getD "itunes"
          sourceId := tr.sourceId, addedById := callerId
          addedByUsername := callerName, votes := 0, votedBy := []
          status := status, position := position, isCurrent := false }
      let st1 : DBState := { st with queueTracks := st.queueTracks ++ [row] }
      let emits1 := [broadcastQueue st1 sid]
      let emits2 := if status == "pending"
        then emits1 ++ [Emit.toRoom sid (Msg.trackPending row)]
        else emits1
      let hasCurrent := st1.queueTracks.any (fun t => t.sessionId == sid && t.isCurrent)
      if !hasCurrent && status == "approved" then
        let rows2 := st1.queueTracks.map
          (fun t => if t.id == freshId then { t with isCurrent := true } else t)
        let st2 : DBState := { st1 with queueTracks := rows2 }
        match formatQueueTrack (findTrack st2 freshId) with
        | Except.ok nc =>
            { state := st2
              emits := emits2 ++ [Emit.toRoom sid (Msg.trackChanged (some nc))]
              fault := none }
        | Except.error _ =>
            { state := st2
              emits := emits2 ++ [Emit.toCaller (Msg.errorMsg "Failed to add track to queue")]
              fault := none }
      else
        { state := st1, emits := emits2, fault := none }

/-- votedBy[userId] || 0. -/
def lookupVote (m : List (String × Int)) (k : String) : Int :=
  match m.find? (fun p => p.1 == k) with
  | some p => p.2
  | none => 0

/-- delete votedBy[userId]. -/
def delKey (m : List (String × Int)) (k : String) : List (String × Int) :=
  m.filter (fun p => p.1 != k)

/-- votedBy[userId] = v: overwrite the existing entry, else append a new one
(JavaScript object assignment keeps the key position of an existing key and
appends a fresh key last). -/
def setKey (m : List (String × Int)) (k : String) (v : Int) : List (String × Int) :=
  if m.any (fun p => p.1 == k) then
    m.map (fun p => if p.1 == k then (k, v) else p)
  else m ++ [(k, v)]

/-- Object.values(votedBy).reduce((sum, v) => sum + v, 0). -/
def sumVotes (m : List (String × Int)) : Int :=
  (m.map (fun p => p.2)).sum

/-- const voteDir = (direction === 1 || direction === up) ? 1 : -1. -/
def normalizeDirection (d : JsVal) : Int :=
  if d == JsVal.num 1 || d == JsVal.str "up" then 1 else -1

/-- The toggle-or-overwrite step of vote-track: when the previous vote equals
the requested direction the entry is deleted, otherwise it is set. -/
def voteUpdate (m : List (String × Int)) (k : String) (d : Int) :
    List (String × Int) :=
  if lookupVote m k == d then delKey m k else setKey m k d

/-- The vote-track handler (socketHandler.ts): look the track up by id alone,
toggle or overwrite the caller's entry in the voter map, recompute the total
as the sum of the map, store both, and re-broadcast the ordering of the room
named in the payload. A missing track id is a silent no-op. -/
def voteTrack (st : DBState) (callerId sid tid : String) (direction : JsVal) :
    HandlerResult :=
  let voteDir := normalizeDirection direction
  match findTrack st tid with
  | none => { state := st, emits := [], fault := none }
  | some track =>
      let votedBy := track.votedBy
      let votedBy1 := voteUpdate votedBy callerId voteDir
      let totalVotes := sumVotes votedBy1
      let rows1 := st.queueTracks.map
        (fun t => if t.id == tid then { t with votes := totalVotes, votedBy := votedBy1 } else t)
      let st1 : DBState := { st with queueTracks := rows1 }
      { state := st1, emits := [broadcastQueue st1 sid], fault := none }

/-- roomPlaybackState[sid] = ps. -/
def setPlayback (pb : List (String × PlaybackState)) (sid : String)
    (ps : PlaybackState) : List (String × PlaybackState) :=
  if pb.any (fun p => p.1 == sid) then
    pb.map (fun p => if p.1 == sid then (sid, ps) else p)
  else pb ++ [(sid, ps)]

/-- delete roomPlaybackState[sid]. -/
def delPlayback (pb : List (String × PlaybackState)) (sid : String) :
    List (String × PlaybackState) :=
  pb.filter (fun p => p.1 != sid)

/-- roomPlaybackState[sid] as an optional read. -/
def getPlayback (pb : List (String × PlaybackState)) (sid : String) :
    Option PlaybackState :=
  (pb.find? (fun p => p.1 == sid)).map (fun p => p.2)

/-- The first statement of advanceTrack: DELETE FROM queue_tracks WHERE
session_id = ? AND is_current = 1. -/
def removeCurrent (st : DBState) (sid : String) : DBState :=
  { st with queueTracks :=
      st.queueTracks.filter (fun t => !(t.sessionId == sid && t.isCurrent)) }

/-- advanceTrack (socketHandler.ts): delete the session's current rows, take
the head of the mode-ordered queue as the next current, stamp the playback
clock playing at position 0 (now models Date.now()), and broadcast the new
current track or an explicit null plus the recomputed queue. -/
def advanceTrack (st : DBState) (sid : String) (now : Nat) : HandlerResult :=
  let st1 : DBState := removeCurrent st sid
  let ordered := getOrderedQueue st1 sid
  match ordered.head? with
  | some next =>
      let rows2 := st1.queueTracks.map
        (fun t => if t.id == next.id then { t with isCurrent := true } else t)
      let st2 : DBState := { st1 with queueTracks := rows2 }
      match formatQueueTrack (findTrack st2 next.id) with
      | Except.ok fresh =>
          let ps : PlaybackState :=
            { state := "playing", position := 0, timestamp := now, trackId := some next.id }
          let st3 : DBState := { st2 with playback := setPlayback st2.playback sid ps }
          { state := st3
            emits := [Emit.toRoom sid (Msg.trackChanged (some fresh)), broadcastQueue st3 sid]
            fault := none }
      | Except.error e => { state := st2, emits := [], fault := some e }
  | none =>
      let st2 : DBState := { st1 with playback := delPlayback st1.playback sid }
      { state := st2
        emits := [Emit.toRoom sid (Msg.trackChanged none), broadcastQueue st2 sid]
        fault := none }

/-- The skip-track handler: in spotlight mode a non-host caller only gets a
scoped error notice; otherwise the queue advances. -/
def skipTrack (st : DBState) (callerId sid : String) (now : Nat) : HandlerResult :=
  match findSession st sid with
  | some s =>
      if s.roomMode == "spotlight" && s.hostId != callerId then
        { state := st
          emits := [Emit.toCaller (Msg.errorMsg "Only the host can skip in Spotlight mode")]
          fault := none }
      else advanceTrack st sid now
  | none => advanceTrack st sid now

/-- The track-ended handler: an unconditional advance. -/
def trackEnded (st : DBState) (sid : String) (now : Nat) : HandlerResult :=
  advanceTrack st sid now

/-- The approve-track handler (socketHandler.ts): no caller identity is read
at all. UPDATE status by id, broadcast the queue, then SELECT the row back and
format it for the track-approved notice; when the id matches no row the
formatting of undefined throws out of the handler after the broadcast. -/
def approveTrack (st : DBState) (sid tid : String) : HandlerResult :=
  let rows1 := st.queueTracks.map
    (fun t => if t.id == tid then { t with status := "approved" } else t)
  let st1 : DBState := { st with queueTracks := rows1 }
  let e1 := broadcastQueue st1 sid
  match formatQueueTrack (findTrack st1 tid) with
  | Except.ok track =>
      { state := st1
        emits := [e1, Emit.toRoom sid (Msg.trackApproved tid track)]
        fault := none }
  | Except.error e => { state := st1, emits := [e1], fault := some e }

/-- The reject-track handler: DELETE by id, broadcast the queue and a
rejection notice carrying the id. No caller identity is read. -/
def rejectTrack (st : DBState) (sid tid : String) : HandlerResult :=
  let rows1 := st.queueTracks.filter (fun t => t.id != tid)
  let st1 : DBState := { st with queueTracks := rows1 }
  { state := st1
    emits := [broadcastQueue st1 sid, Emit.toRoom sid (Msg.trackRejected tid)]
    fault := none }

/-- The queue-touching socket events, with their payloads; freshId carries the
uuid generated inside add-to-queue and now carries Date.now(). -/
inductive Event where
  | add (callerId callerName sid : String) (tr : TrackInput) (freshId : String)
  | vote (callerId sid tid : String) (direction : JsVal)
  | skip (callerId sid : String) (now : Nat)
  | ended (sid : String) (now : Nat)
  | approve (sid tid : String)
  | reject (sid tid : String)
deriving Repr, DecidableEq

/-- Dispatch one event to its embedded handler. -/
def applyEvent (st : DBState) : Event → HandlerResult
  | Event.add callerId callerName sid tr freshId => addToQueue st callerId callerName sid tr freshId
  | Event.vote callerId sid tid direction => voteTrack st callerId sid tid direction
  | Event.skip callerId sid now => skipTrack st callerId sid now
  | Event.ended sid now => trackEnded st sid now
  | Event.approve sid tid => approveTrack st sid tid
  | Event.reject sid tid => rejectTrack st sid tid

/-- Environment guarantee the code relies on: the uuid generated for a new
queue row never collides with an existing row id. -/
def EventOk (st : DBState) : Event → Prop
  | Event.add _ _ _ _ freshId => freshId ∉ st.queueTracks.map (fun t => t.id)
  | _ => True

/-- Number of is_current rows of one session. -/
def curCount (st : DBState) (sid : String) : Nat :=
  st.queueTracks.countP (fun t => t.sessionId == sid && t.isCurrent)

/-- The section-3 invariant: at most one is_current row per session. -/
def AtMostOneCurrent (st : DBState) : Prop :=
  ∀ sid, curCount st sid ≤ 1

/-- The queue_tracks primary key: row ids are unique. -/
def IdsNodup (st : DBState) : Prop :=
  (st.queueTracks.map (fun t => t.id)).Nodup

/-- EVENT_COOLDOWNS (socketRateLimiter.ts): cooldown in milliseconds per
event type. -/
def EVENT_COOLDOWNS : List (String × Nat) :=
  [("add-to-queue", 2000), ("vote-track", 1000), ("reaction", 300),
   ("skip-track", 1500), ("chat-message", 500), ("approve-track", 500),
   ("reject-track", 500), ("change-mode", 3000), ("end-session", 5000),
   ("duel-vote", 5000), ("forecast-pick", 5000), ("phantom-power", 3000)]

/-- The in-memory cooldowns table: lastAction instant per (userId, event). -/
structure CooldownState where
  entries : List ((String × String) × Nat)
deriving Repr, DecidableEq

/-- cooldowns[userId][event] = now. -/
def setCooldown (cs : CooldownState) (userId event : String) (now : Nat) :
    CooldownState :=
  if cs.entries.any (fun p => p.1 == (userId, event)) then
    let entries1 := cs.entries.map
      (fun p => if p.1 == (userId, event) then ((userId, event), now) else p)
    { entries := entries1 }
  else { entries := cs.entries ++ [((userId, event), now)] }

/-- canDo (socketRateLimiter.ts): allow when no cooldown is configured for the
event (the JavaScript falsy test also lets a zero cooldown through), reject
when the last recorded action is younger than the cooldown, otherwise record
now and allow. -/
def canDo (cs : CooldownState) (userId event : String) (now : Nat) :
    Bool × CooldownState :=
  match (EVENT_COOLDOWNS.find? (fun p => p.1 == event)).map (fun p => p.2) with
  | none => (true, cs)
  | some cooldownMs =>
      if cooldownMs == 0 then (true, cs)
      else
        match cs.entries.find? (fun p => p.1 == (userId, event)) with
        | some e =>
            if now - e.2 < cooldownMs then (false, cs)
            else (true, setCooldown cs userId event now)
        | none => (true, setCooldown cs userId event now)

/-- Modelled from the spec (section 4.1): the round-robin ordering described
in words — group tracks by adder preserving insertion order, then repeatedly
take the head of every queue that still has one, an exhausted adder simply
dropping out of later rounds. Written with explicit fuel (maxRounds is enough
for every queue to drain) to compare against the implemented interleave. -/
def specRounds (qs : List (List α)) : Nat → List α
  | 0 => []
  | n + 1 =>
      let qs1 := qs.filter (fun q => !q.isEmpty)
      qs1.filterMap List.head? ++ specRounds (qs1.map List.tail) n

/-- The round-robin ordering of the spec, applied to grouped rows. -/
def roundRobinSpec (rows : List QueueTrack) : List QueueTrack :=
  specRounds (groupQueues rows) (maxRounds (groupQueues rows))

/-- goodRun l: no two adjacent equal entries, except that once an adjacent
equal pair occurs the whole rest of the list is that same entry — the shape
the campfire fairness property promises for the adder sequence. -/
def goodRun : List String → Bool
  | [] => true
  | [_] => true
  | a :: b :: t => if a == b then (b :: t).all (fun x => x == a) else goodRun (b :: t)

/-- Every queue is homogeneous under f (all rows of one group share an adder). -/
def Homog (f : α → String) (qs : List (List α)) : Prop :=
  ∀ q ∈ qs, ∀ a ∈ q, ∀ b ∈ q, f a = f b

/-- Distinct queues carry distinct f-values (distinct groups, distinct adders). -/
def Sep (f : α → String) (qs : List (List α)) : Prop :=
  qs.Pairwise (fun q1 q2 => ∀ a ∈ q1, ∀ b ∈ q2, f a ≠ f b)

/-- Concrete queue_tracks row builder for the witness states below; metadata
columns take fixed values since no handler branches on them. -/
def mkTrack (id sid addedBy : String) (pos : Int) (status : String)
    (cur : Bool) (votes : Int) (votedBy : List (String × Int)) : QueueTrack :=
  { id := id, sessionId := sid, title := "t", artist := "a", album := none
    albumArt := none, previewUrl := none, duration := 30, source := "itunes"
    sourceId := none, addedById := addedBy, addedByUsername := addedBy
    votes := votes, votedBy := votedBy, status := status, position := pos
    isCurrent := cur }

/-- Concrete add-to-queue payload. -/
def trkIn (title : String) : TrackInput :=
  { title := title, artist := "a", album := none, albumArt := none
    previewUrl := none, duration := none, source := none, sourceId := none }

/-- A fresh campfire session with an empty queue. -/
def state0 : DBState :=
  { sessions := [{ id := "s", hostId := "h", roomMode := "campfire" }]
    queueTracks := [], playback := [] }

/-- Two live sessions; the only queue row belongs to session b. -/
def stateCross : DBState :=
  { sessions := [{ id := "a", hostId := "ha", roomMode := "campfire" },
                 { id := "b", hostId := "hb", roomMode := "campfire" }]
    queueTracks := [mkTrack "t1" "b" "g" 0 "approved" false 0 []]
    playback := [] }

/-- A campfire session whose only row records a downvote by u1. -/
def stateOpp : DBState :=
  { sessions := [{ id := "s", hostId := "h", roomMode := "campfire" }]
    queueTracks := [mkTrack "t1" "s" "g" 0 "approved" false (-1) [("u1", -1)]]
    playback := [] }

/-- A spotlight session hosted by h with one pending track added by guest g. -/
def stateSpot : DBState :=
  { sessions := [{ id := "s", hostId := "h", roomMode := "spotlight" }]
    queueTracks := [mkTrack "t1" "s" "g" 0 "pending" false 0 []]
    playback := [] }

/-- Replay for the position-reuse scenario: u1 adds T1 then T2, the host
rejects T2, u1 adds T3. -/
def runC4a : DBState := (addToQueue state0 "u1" "u" "s" (trkIn "T1") "q1").state

def runC4b : DBState := (addToQueue runC4a "u1" "u" "s" (trkIn "T2") "q2").state

def runC4c : DBState := (rejectTrack runC4b "s" "q2").state

def runC4d : DBState := (addToQueue runC4c "u1" "u" "s" (trkIn "T3") "q3").state

/-- Replay for the double-add scenario of the rate-limit claim. -/
def runDoubleAdd : HandlerResult :=
  addToQueue (addToQueue state0 "u1" "u" "s" (trkIn "T1") "q1").state
    "u1" "u" "s" (trkIn "T2") "q2"

/-- Replay of voting the same direction twice on a track that already holds
the opposite vote by the same identity. -/
def runOpp : DBState :=
  (voteTrack (voteTrack stateOpp "u1" "s" "t1" (JsVal.num 1)).state
    "u1" "s" "t1" (JsVal.num 1)).state

/-- True when the emission is a direct reply to the calling socket. -/
def isCallerNotice : Emit → Bool
  | Emit.toCaller _ => true
  | Emit.toRoom _ _ => false

/-- A campfire session that already has a current track, so later adds stay
in the waiting queue. -/
def stateCur : DBState :=
  { sessions := [{ id := "s", hostId := "h", roomMode := "campfire" }]
    queueTracks := [mkTrack "cur" "s" "h" 0 "approved" true 0 []]
    playback := [] }

/-- Replay of the campfire fairness scenario: adder A adds T1 and T2, then
adder B adds T3. -/
def runC3 : DBState :=
  (addToQueue (addToQueue (addToQueue stateCur "A" "A" "s" (trkIn "T1") "t1").state
    "A" "A" "s" (trkIn "T2") "t2").state "B" "B" "s" (trkIn "T3") "t3").state

/-! ## Theorems -/

theorem normalizeDirection_eq_neg_one {d : JsVal} (h1 : d ≠ JsVal.num 1)
    (h2 : d ≠ JsVal.str "up") : normalizeDirection d = -1 := by
  unfold normalizeDirection
  rw [beq_eq_false_iff_ne.mpr h1, beq_eq_false_iff_ne.mpr h2]
  rfl

/-- C10: in vote-track the direction payload is normalized to +1 exactly when
it equals the number 1 or the string up, and to -1 for every other value, so a
malformed, zero or missing direction is silently recorded as a downvote: the
handler behaves on an absent direction exactly as on an explicit -1. -/
theorem c10_direction_normalization :
    (∀ d : JsVal, normalizeDirection d = 1 ↔ (d = JsVal.num 1 ∨ d = JsVal.str "up"))
    ∧ (∀ d : JsVal, d ≠ JsVal.num 1 → d ≠ JsVal.str "up" → normalizeDirection d = -1)
    ∧ (∀ st u sid tid, voteTrack st u sid tid JsVal.undef
        = voteTrack st u sid tid (JsVal.num (-1))) := by
  refine ⟨fun d => ?_, fun d h1 h2 => normalizeDirection_eq_neg_one h1 h2,
    fun st u sid tid => rfl⟩
  constructor
  · intro h
    by_cases h1 : d = JsVal.num 1
    · exact Or.inl h1
    by_cases h2 : d = JsVal.str "up"
    · exact Or.inr h2
    · rw [normalizeDirection_eq_neg_one h1 h2] at h
      exact absurd h (by decide)
  · rintro (rfl | rfl) <;> rfl

/-- C10 witness: evaluating the normalization at concrete payloads. -/
theorem c10_witness :
    normalizeDirection JsVal.undef = -1 ∧ normalizeDirection (JsVal.num 0) = -1
    ∧ normalizeDirection (JsVal.num 1) = 1 :=
  ⟨c10_direction_normalization.2.1 JsVal.undef (by decide) (by decide),
   c10_direction_normalization.2.1 (JsVal.num 0) (by decide) (by decide),
   (c10_direction_normalization.1 (JsVal.num 1)).2 (Or.inl rfl)⟩

/-- C1: the per-identity cooldown table would reject a second add-to-queue
100 ms after the first (the configured cooldown is 2000 ms), yet replaying two
add-to-queue emissions by the same identity mutates the store both times and
answers with no throttling notice: the event handlers never consult canDo. -/
theorem c1_rate_limiter_not_consulted :
    (canDo { entries := [(("u1", "add-to-queue"), 0)] } "u1" "add-to-queue" 100).1 = false
    ∧ runDoubleAdd.state.queueTracks.length = 2
    ∧ runDoubleAdd.emits.all (fun e => !isCallerNotice e) = true :=
  ⟨rfl, rfl, rfl⟩

/-- C6: the approve-track and reject-track handlers read no caller identity at
all, so a pending track in a spotlight room is approved (status flips) or
rejected (row deleted) no matter who asks — there is no host-moderation guard. -/
theorem c6_moderation_unguarded :
    (approveTrack stateSpot "s" "t1").state.queueTracks.map (fun t => t.status)
      = ["approved"]
    ∧ (rejectTrack stateSpot "s" "t1").state.queueTracks = [] :=
  ⟨rfl, rfl⟩

/-- C7: approve-track on a track id matching no row throws: after the queue
broadcast, the handler formats the undefined lookup result and the TypeError
escapes the handler uncaught (the store itself is left unchanged because the
UPDATE matched nothing). -/
theorem c7_approve_missing_track_faults :
    (approveTrack stateCross "a" "ghost").fault
      = some "TypeError: cannot read properties of undefined"
    ∧ (approveTrack stateCross "a" "ghost").state = stateCross :=
  ⟨rfl, rfl⟩

/-- C2 counterexample: a vote-track request carrying sessionId a and a track
id belonging to session b mutates the queue row of session b — the handler
locates the row by trackId alone, so a request does reach across rooms. -/
theorem c2_cross_session_counterexample :
    stateCross.queueTracks.map (fun t => (t.sessionId, t.votes)) = [("b", 0)]
    ∧ (voteTrack stateCross "u1" "a" "t1" (JsVal.num 1)).state.queueTracks.map
        (fun t => (t.sessionId, t.votes)) = [("b", 1)] :=
  ⟨rfl, rfl⟩

/-- C4 counterexample: q2 is assigned position 1; after q2 is rejected the
next add assigns position 1 again to q3, so positions of deleted rows are
reused and assignment is not monotone over all previously assigned positions. -/
theorem c4_position_reuse_counterexample :
    (findTrack runC4b "q2").map (fun t => t.position) = some 1
    ∧ findTrack runC4d "q2" = none
    ∧ (findTrack runC4d "q3").map (fun t => t.position) = some 1 :=
  ⟨rfl, rfl, rfl⟩

/-- C8 counterexample: u1 holds a -1 vote on t1; voting +1 twice leaves the
voter map empty and the total at 0, not at the pre-vote values (-1 and a -1
entry) — the double toggle is not an identity when the prior vote is the
opposite direction. -/
theorem c8_opposite_vote_counterexample :
    (findTrack stateOpp "t1").map (fun t => (t.votes, t.votedBy))
      = some (-1, [("u1", -1)])
    ∧ (findTrack runOpp "t1").map (fun t => (t.votes, t.votedBy)) = some (0, []) :=
  ⟨rfl, rfl⟩

/-! ### Association-list lemmas for the voter map -/

theorem lookupVote_cons (p : String × Int) (ps : List (String × Int)) (k : String) :
    lookupVote (p :: ps) k = if p.1 == k then p.2 else lookupVote ps k := by
  unfold lookupVote
  rw [List.find?_cons]
  cases hp : p.1 == k <;> simp [hp]

theorem sumVotes_cons (p : String × Int) (ps : List (String × Int)) :
    sumVotes (p :: ps) = p.2 + sumVotes ps := by
  simp [sumVotes]

theorem delKey_cons (p : String × Int) (ps : List (String × Int)) (k : String) :
    delKey (p :: ps) k = if p.1 == k then delKey ps k else p :: delKey ps k := by
  unfold delKey
  rw [List.filter_cons]
  cases hp : p.1 == k <;> simp [hp, bne]

theorem delKey_eq_self {m : List (String × Int)} {k : String}
    (h : ∀ q ∈ m, (q.1 == k) = false) : delKey m k = m := by
  unfold delKey
  apply List.filter_eq_self.mpr
  intro q hq
  simp [bne, h q hq]

theorem lookupVote_delKey_self (m : List (String × Int)) (k : String) :
    lookupVote (delKey m k) k = 0 := by
  have h : (delKey m k).find? (fun p => p.1 == k) = none := by
    apply List.find?_eq_none.mpr
    intro x hx
    simp only [delKey] at hx
    have h2 := (List.mem_filter.mp hx).2
    simp only [bne_iff_ne, ne_eq] at h2
    simp [h2]
  unfold lookupVote
  rw [h]

theorem lookupVote_delKey_ne (m : List (String × Int)) {k k2 : String} (v : k2 ≠ k) :
    lookupVote (delKey m k) k2 = lookupVote m k2 := by
  induction m with
  | nil => rfl
  | cons p ps ih =>
      rw [delKey_cons, lookupVote_cons]
      by_cases hp : (p.1 == k) = true
      · have hpk : p.1 = k := beq_iff_eq.mp hp
        have hp2 : (p.1 == k2) = false := by
          apply beq_eq_false_iff_ne.mpr
          rw [hpk]
          exact fun h => v h.symm
        rw [if_pos hp, if_neg (by simp [hp2]), ih]
      · rw [if_neg hp, lookupVote_cons, ih]

theorem lookupVote_overwrite_map (ps : List (String × Int)) {k k2 : String}
    (v : Int) (h : k2 ≠ k) :
    lookupVote (ps.map (fun q => if q.1 == k then (k, v) else q)) k2
      = lookupVote ps k2 := by
  induction ps with
  | nil => rfl
  | cons p ps ih =>
      rw [List.map_cons, lookupVote_cons]
      by_cases hp : (p.1 == k) = true
      · have hpk : p.1 = k := beq_iff_eq.mp hp
        have hk2 : (k == k2) = false := beq_eq_false_iff_ne.mpr (fun h2 => h h2.symm)
        have hp2 : (p.1 == k2) = false := by rw [hpk]; exact hk2
        rw [if_pos hp]
        simp only [hk2, hp2]
        rw [if_neg (by simp), lookupVote_cons, if_neg (by simp [hp2]), ih]
      · rw [if_neg hp, lookupVote_cons, ih]

theorem lookupVote_append_single (m : List (String × Int)) {k k2 : String}
    (v : Int) (h : k2 ≠ k) :
    lookupVote (m ++ [(k, v)]) k2 = lookupVote m k2 := by
  unfold lookupVote
  rw [List.find?_append]
  cases hf : m.find? (fun p => p.1 == k2) with
  | some p => simp
  | none =>
      have : (k == k2) = false := beq_eq_false_iff_ne.mpr (fun h2 => h h2.symm)
      simp [this]

theorem lookupVote_setKey_ne (m : List (String × Int)) {k k2 : String}
    (v : Int) (h : k2 ≠ k) :
    lookupVote (setKey m k v) k2 = lookupVote m k2 := by
  unfold setKey
  split
  · exact lookupVote_overwrite_map m v h
  · exact lookupVote_append_single m v h

theorem lookupVote_setKey_self (m : List (String × Int)) (k : String) (v : Int) :
    lookupVote (setKey m k v) k = v := by
  unfold setKey
  split
  · next hany =>
      induction m with
      | nil => cases hany
      | cons p ps ih =>
          rw [List.map_cons]
          by_cases hp : (p.1 == k) = true
          · rw [if_pos hp, lookupVote_cons, if_pos (by simp)]
          · rw [if_neg hp, lookupVote_cons, if_neg (by simp [hp])]
            have hp2 : (p.1 == k) = false := by simpa using hp
            rw [List.any_cons, hp2, Bool.false_or] at hany
            exact ih hany
  · next hany =>
      have hnone : m.find? (fun p => p.1 == k) = none := by
        apply List.find?_eq_none.mpr
        intro x hx
        have := List.any_eq_false.mp (Bool.eq_false_iff.mpr hany) x hx
        simpa using this
      unfold lookupVote
      rw [List.find?_append, hnone]
      simp

theorem keys_nodup_cons {p : String × Int} {ps : List (String × Int)}
    (h : ((p :: ps).map (fun q => q.1)).Nodup) :
    (∀ q ∈ ps, (q.1 == p.1) = false) ∧ (ps.map (fun q => q.1)).Nodup := by
  rw [List.map_cons, List.nodup_cons] at h
  refine ⟨fun q hq => ?_, h.2⟩
  apply beq_eq_false_iff_ne.mpr
  intro hEq
  exact h.1 (hEq ▸ List.mem_map_of_mem (fun q => q.1) hq)

theorem keysNodup_delKey {m : List (String × Int)} (k : String)
    (h : (m.map (fun q => q.1)).Nodup) :
    ((delKey m k).map (fun q => q.1)).Nodup :=
  List.Nodup.sublist (List.Sublist.map (fun q => q.1) (List.filter_sublist m)) h

theorem keysNodup_setKey {m : List (String × Int)} (k : String) (v : Int)
    (h : (m.map (fun q => q.1)).Nodup) :
    ((setKey m k v).map (fun q => q.1)).Nodup := by
  unfold setKey
  split
  · next hany =>
      have heq : (m.map (fun q => if q.1 == k then (k, v) else q)).map (fun q => q.1)
          = m.map (fun q => q.1) := by
        rw [List.map_map]
        apply List.map_congr_left
        intro q hq
        by_cases hq2 : (q.1 == k) = true
        · simp [Function.comp, hq2, (beq_iff_eq.mp hq2).symm]
        · simp [Function.comp, hq2]
      rw [heq]
      exact h
  · next hany =>
      rw [List.map_append]
      rw [List.nodup_append]
      refine ⟨h, List.nodup_singleton k, ?_⟩
      intro a ha hb
      have ha2 : a = k := by simpa using hb
      obtain ⟨q, hq, hq2⟩ := List.mem_map.mp ha
      have := List.any_eq_false.mp (Bool.eq_false_iff.mpr hany) q hq
      rw [ha2] at hq2
      simp [hq2] at this

theorem sumVotes_delKey {m : List (String × Int)} {k : String}
    (h : (m.map (fun q => q.1)).Nodup) :
    sumVotes (delKey m k) = sumVotes m - lookupVote m k := by
  induction m with
  | nil => rfl
  | cons p ps ih =>
      obtain ⟨hfresh, hnd⟩ := keys_nodup_cons h
      rw [delKey_cons, lookupVote_cons, sumVotes_cons]
      by_cases hp : (p.1 == k) = true
      · have hpk : p.1 = k := beq_iff_eq.mp hp
        have hself : delKey ps k = ps := by
          apply delKey_eq_self
          intro q hq
          rw [← hpk]
          exact hfresh q hq
        rw [if_pos hp, if_pos hp, hself]
        omega
      · rw [if_neg hp, if_neg hp, sumVotes_cons, ih hnd]
        omega

theorem sumVotes_setKey {m : List (String × Int)} {k : String} (v : Int)
    (h : (m.map (fun q => q.1)).Nodup) :
    sumVotes (setKey m k v) = sumVotes m - lookupVote m k + v := by
  induction m with
  | nil => simp [setKey, sumVotes, lookupVote]
  | cons p ps ih =>
      obtain ⟨hfresh, hnd⟩ := keys_nodup_cons h
      by_cases hp : (p.1 == k) = true
      · have hpk : p.1 = k := beq_iff_eq.mp hp
        have hcons : setKey (p :: ps) k v = (k, v) :: ps := by
          unfold setKey
          rw [if_pos (by simp [List.any_cons, hp])]
          rw [List.map_cons, if_pos hp]
          congr 1
          have : ∀ q ∈ ps, (fun q => if q.1 == k then (k, v) else q) q = q := by
            intro q hq
            have := hfresh q hq
            rw [← hpk]
            simp [this]
          rw [List.map_congr_left this]
          simp
        rw [hcons, sumVotes_cons, sumVotes_cons, lookupVote_cons, if_pos hp]
        omega
      · have hcons : setKey (p :: ps) k v = p :: setKey ps k v := by
          unfold setKey
          have hp2 : (p.1 == k) = false := by simpa using hp
          rw [List.any_cons, hp2, Bool.false_or]
          by_cases h2 : (ps.any fun q => q.1 == k) = true
          · rw [if_pos h2, if_pos h2, List.map_cons, if_neg hp]
          · rw [if_neg h2, if_neg h2, List.cons_append]
        rw [hcons, sumVotes_cons, sumVotes_cons, ih hnd, lookupVote_cons, if_neg hp]
        omega

theorem normalizeDirection_ne_zero (d : JsVal) : normalizeDirection d ≠ 0 := by
  unfold normalizeDirection
  split <;> decide

theorem find?_map_selective (l : List QueueTrack) (p : QueueTrack → Bool)
    (f : QueueTrack → QueueTrack) (hpf : ∀ t, p (f t) = p t) :
    (l.map f).find? p = (l.find? p).map f := by
  rw [List.find?_map]
  have h : p ∘ f = p := funext hpf
  rw [h]

theorem find?_id_after_update (l : List QueueTrack) (tid : String)
    (g : QueueTrack → QueueTrack) (hg : ∀ t, (g t).id = t.id) :
    (l.map (fun t => if t.id == tid then g t else t)).find? (fun t => t.id == tid)
      = (l.find? (fun t => t.id == tid)).map (fun t => if t.id == tid then g t else t) := by
  apply find?_map_selective
  intro t
  by_cases h2 : (t.id == tid) = true
  · rw [if_pos h2, hg t]
  · rw [if_neg h2]

theorem voteTrack_state_found {st : DBState} {u sid tid : String} {dir : JsVal}
    {tr : QueueTrack} (h : findTrack st tid = some tr) :
    findTrack (voteTrack st u sid tid dir).state tid
      = some { tr with
          votes := sumVotes (voteUpdate tr.votedBy u (normalizeDirection dir)),
          votedBy := voteUpdate tr.votedBy u (normalizeDirection dir) } := by
  have hfind : st.queueTracks.find? (fun t => t.id == tid) = some tr := h
  have htid : (tr.id == tid) = true := by
    have h2 := List.find?_some hfind
    simpa using h2
  have hstate : (voteTrack st u sid tid dir).state.queueTracks
      = st.queueTracks.map (fun t => if t.id == tid then
          ({ t with
              votes := sumVotes (voteUpdate tr.votedBy u (normalizeDirection dir))
              votedBy := voteUpdate tr.votedBy u (normalizeDirection dir) } : QueueTrack)
          else t) := by
    simp only [voteTrack, h]
  unfold findTrack
  rw [hstate]
  rw [find?_id_after_update st.queueTracks tid
    (fun t => ({ t with
        votes := sumVotes (voteUpdate tr.votedBy u (normalizeDirection dir))
        votedBy := voteUpdate tr.votedBy u (normalizeDirection dir) } : QueueTrack))
    (fun t => rfl)]
  rw [hfind, Option.map_some', if_pos htid]

theorem voteUpdate_twice {m : List (String × Int)} {u : String} {d : Int}
    (hnd : (m.map (fun q => q.1)).Nodup) (hdz : d ≠ 0)
    (hprev : lookupVote m u = 0 ∨ lookupVote m u = d) :
    sumVotes (voteUpdate (voteUpdate m u d) u d) = sumVotes m
    ∧ ∀ k, lookupVote (voteUpdate (voteUpdate m u d) u d) k = lookupVote m k := by
  unfold voteUpdate
  by_cases hpd : (lookupVote m u == d) = true
  · rw [if_pos hpd]
    have hd0 : (lookupVote (delKey m u) u == d) = false := by
      rw [lookupVote_delKey_self]
      exact beq_eq_false_iff_ne.mpr (fun h0 => hdz h0.symm)
    rw [if_neg (by simp [hd0])]
    constructor
    · rw [sumVotes_setKey d (keysNodup_delKey u hnd), sumVotes_delKey hnd,
        lookupVote_delKey_self]
      have := beq_iff_eq.mp hpd
      omega
    · intro k
      by_cases hk : k = u
      · subst hk
        rw [lookupVote_setKey_self]
        exact (beq_iff_eq.mp hpd).symm
      · rw [lookupVote_setKey_ne _ _ hk, lookupVote_delKey_ne _ hk]
  · rw [if_neg hpd]
    have hp0 : lookupVote m u = 0 := by
      rcases hprev with h0 | h0
      · exact h0
      · exact absurd (beq_iff_eq.mpr h0) hpd
    have hdd : (lookupVote (setKey m u d) u == d) = true := by
      rw [lookupVote_setKey_self]
      simp
    rw [if_pos hdd]
    constructor
    · rw [sumVotes_delKey (keysNodup_setKey u d hnd), sumVotes_setKey d hnd,
        lookupVote_setKey_self, hp0]
      omega
    · intro k
      by_cases hk : k = u
      · subst hk
        rw [lookupVote_delKey_self, hp0]
      · rw [lookupVote_delKey_ne _ hk, lookupVote_setKey_ne _ _ hk]

/-- C8 (amended): applying vote-track twice with the same direction by the
same identity returns the voter map (as a key-value lookup) and the vote total
to their pre-first-vote values, provided the identity's recorded vote before
the first application is absent or already equals that direction; and after
every vote-track the updated row's stored total equals the sum of its voter
map. -/
theorem c8_vote_toggle_and_sum :
    (∀ st u sid tid dir tr,
      findTrack st tid = some tr →
      (tr.votedBy.map (fun q => q.1)).Nodup →
      tr.votes = sumVotes tr.votedBy →
      (lookupVote tr.votedBy u = 0 ∨ lookupVote tr.votedBy u = normalizeDirection dir) →
      ∃ tr2,
        findTrack (voteTrack (voteTrack st u sid tid dir).state u sid tid dir).state tid
          = some tr2
        ∧ tr2.votes = tr.votes
        ∧ ∀ k, lookupVote tr2.votedBy k = lookupVote tr.votedBy k)
    ∧ (∀ st u sid tid dir tr,
      findTrack st tid = some tr →
      ∃ tr1, findTrack (voteTrack st u sid tid dir).state tid = some tr1
        ∧ tr1.votes = sumVotes tr1.votedBy) := by
  constructor
  · intro st u sid tid dir tr h hnd hsum hprev
    have h1 := @voteTrack_state_found st u sid tid dir tr h
    have h2 := @voteTrack_state_found _ u sid tid dir _ h1
    obtain ⟨hsum2, hlook⟩ :=
      voteUpdate_twice hnd (normalizeDirection_ne_zero dir) hprev
    refine ⟨_, h2, ?_, ?_⟩
    · show sumVotes (voteUpdate (voteUpdate tr.votedBy u (normalizeDirection dir))
        u (normalizeDirection dir)) = tr.votes
      rw [hsum2]
      exact hsum.symm
    · intro k
      show lookupVote (voteUpdate (voteUpdate tr.votedBy u (normalizeDirection dir))
        u (normalizeDirection dir)) k = lookupVote tr.votedBy k
      exact hlook k
  · intro st u sid tid dir tr h
    exact ⟨_, voteTrack_state_found h, rfl⟩

/-! ### Frame lemmas for session scoping -/

theorem filter_other_sessions_map (l : List QueueTrack) (tid sid : String)
    (g : QueueTrack → QueueTrack) (hg : ∀ t, (g t).sessionId = t.sessionId)
    (H : ∀ t ∈ l, t.id = tid → t.sessionId = sid) :
    (l.map (fun t => if t.id == tid then g t else t)).filter
        (fun t => t.sessionId != sid)
      = l.filter (fun t => t.sessionId != sid) := by
  induction l with
  | nil => rfl
  | cons p ps ih =>
      have Hps : ∀ t ∈ ps, t.id = tid → t.sessionId = sid :=
        fun t ht => H t (List.mem_cons_of_mem p ht)
      rw [List.map_cons, List.filter_cons, List.filter_cons]
      by_cases hp : (p.id == tid) = true
      · have hsid : p.sessionId = sid := H p (List.mem_cons_self p ps) (beq_iff_eq.mp hp)
        have h1 : ((if p.id == tid then g p else p).sessionId != sid) = false := by
          rw [if_pos hp, hg p, hsid]
          simp
        have h2 : (p.sessionId != sid) = false := by
          rw [hsid]
          simp
        rw [h1, h2]
        simpa using ih Hps
      · rw [if_neg hp]
        rw [ih Hps]

theorem filter_other_sessions_remove (l : List QueueTrack) (tid sid : String)
    (H : ∀ t ∈ l, t.id = tid → t.sessionId = sid) :
    (l.filter (fun t => t.id != tid)).filter (fun t => t.sessionId != sid)
      = l.filter (fun t => t.sessionId != sid) := by
  induction l with
  | nil => rfl
  | cons p ps ih =>
      have Hps : ∀ t ∈ ps, t.id = tid → t.sessionId = sid :=
        fun t ht => H t (List.mem_cons_of_mem p ht)
      rw [List.filter_cons, List.filter_cons]
      by_cases hp : (p.id == tid) = true
      · have hsid : p.sessionId = sid := H p (List.mem_cons_self p ps) (beq_iff_eq.mp hp)
        have h1 : (p.id != tid) = false := by simp [bne, hp]
        have h2 : (p.sessionId != sid) = false := by
          rw [hsid]
          simp
        rw [h1, h2]
        simpa using ih Hps
      · have h1 : (p.id != tid) = true := by simp [bne, hp]
        rw [h1]
        simp only [if_true]
        rw [List.filter_cons]
        rw [ih Hps]

/-- C2 (amended): vote-track, approve-track and reject-track locate the row by
trackId alone, ignoring the payload sessionId for the lookup; whenever the
named track belongs to the payload sessionId (the only payloads well-behaved
clients produce, since row ids are globally unique), rows of every other
session are untouched, the sessions table and the playback map are untouched,
and every emission goes to the payload session room only. -/
theorem c2_session_scoping_amended :
    ∀ st u sid tid dir,
      (∀ t ∈ st.queueTracks, t.id = tid → t.sessionId = sid) →
      (((voteTrack st u sid tid dir).state.queueTracks.filter
            (fun t => t.sessionId != sid)
          = st.queueTracks.filter (fun t => t.sessionId != sid))
        ∧ (voteTrack st u sid tid dir).state.sessions = st.sessions
        ∧ (voteTrack st u sid tid dir).state.playback = st.playback
        ∧ ∀ e ∈ (voteTrack st u sid tid dir).emits, ∃ msg, e = Emit.toRoom sid msg)
      ∧ (((approveTrack st sid tid).state.queueTracks.filter
            (fun t => t.sessionId != sid)
          = st.queueTracks.filter (fun t => t.sessionId != sid))
        ∧ (approveTrack st sid tid).state.sessions = st.sessions
        ∧ (approveTrack st sid tid).state.playback = st.playback
        ∧ ∀ e ∈ (approveTrack st sid tid).emits, ∃ msg, e = Emit.toRoom sid msg)
      ∧ (((rejectTrack st sid tid).state.queueTracks.filter
            (fun t => t.sessionId != sid)
          = st.queueTracks.filter (fun t => t.sessionId != sid))
        ∧ (rejectTrack st sid tid).state.sessions = st.sessions
        ∧ (rejectTrack st sid tid).state.playback = st.playback
        ∧ ∀ e ∈ (rejectTrack st sid tid).emits, ∃ msg, e = Emit.toRoom sid msg) := by
  intro st u sid tid dir H
  refine ⟨?_, ?_, ?_⟩
  · cases h : findTrack st tid with
    | none =>
        refine ⟨?_, ?_, ?_, ?_⟩ <;> simp [voteTrack, h]
    | some tr =>
        refine ⟨?_, ?_, ?_, ?_⟩
        · have hstate : (voteTrack st u sid tid dir).state.queueTracks
              = st.queueTracks.map (fun t => if t.id == tid then
                  ({ t with
                      votes := sumVotes (voteUpdate tr.votedBy u (normalizeDirection dir))
                      votedBy := voteUpdate tr.votedBy u (normalizeDirection dir) }
                    : QueueTrack)
                  else t) := by
            simp only [voteTrack, h]
          rw [hstate]
          exact filter_other_sessions_map st.queueTracks tid sid _ (fun t => rfl) H
        · simp [voteTrack, h]
        · simp [voteTrack, h]
        · intro e he
          simp only [voteTrack, h, broadcastQueue] at he
          rw [List.mem_singleton] at he
          exact ⟨_, he⟩
  · have happrove : (approveTrack st sid tid).state.queueTracks
          = st.queueTracks.map
              (fun t => if t.id == tid then { t with status := "approved" } else t)
        ∧ (approveTrack st sid tid).state.sessions = st.sessions
        ∧ (approveTrack st sid tid).state.playback = st.playback
        ∧ ∀ e ∈ (approveTrack st sid tid).emits, ∃ msg, e = Emit.toRoom sid msg := by
      simp only [approveTrack]
      split
      · refine ⟨rfl, rfl, rfl, ?_⟩
        intro e he
        simp only [broadcastQueue] at he
        rcases List.mem_cons.mp he with rfl | he2
        · exact ⟨_, rfl⟩
        · rw [List.mem_singleton] at he2
          exact ⟨_, he2⟩
      · refine ⟨rfl, rfl, rfl, ?_⟩
        intro e he
        simp only [broadcastQueue] at he
        rw [List.mem_singleton] at he
        exact ⟨_, he⟩
    refine ⟨?_, happrove.2.1, happrove.2.2.1, happrove.2.2.2⟩
    rw [happrove.1]
    exact filter_other_sessions_map st.queueTracks tid sid _ (fun t => rfl) H
  · refine ⟨?_, ?_, ?_, ?_⟩
    · show (st.queueTracks.filter (fun t => t.id != tid)).filter
          (fun t => t.sessionId != sid)
        = st.queueTracks.filter (fun t => t.sessionId != sid)
      exact filter_other_sessions_remove st.queueTracks tid sid H
    · rfl
    · rfl
    · intro e he
      simp only [rejectTrack, broadcastQueue] at he
      rcases List.mem_cons.mp he with rfl | he2
      · exact ⟨_, rfl⟩
      · rw [List.mem_singleton] at he2
        exact ⟨_, he2⟩

/-- C2 witness: on a consistent payload (the track named by t1 belongs to
session b) the frame property holds concretely. -/
theorem c2_witness :
    (voteTrack stateCross "u1" "b" "t1" (JsVal.num 1)).state.queueTracks.filter
        (fun t => t.sessionId != "b")
      = stateCross.queueTracks.filter (fun t => t.sessionId != "b") :=
  ((c2_session_scoping_amended stateCross "u1" "b" "t1" (JsVal.num 1)
    (by decide)).1).1

/-! ### Position assignment -/

theorem listMaxInt_ge {l : List Int} {a : Int} (h : a ∈ l) :
    ∃ m, listMaxInt l = some m ∧ a ≤ m := by
  induction l with
  | nil => cases h
  | cons p ps ih =>
      rcases List.mem_cons.mp h with rfl | hm
      · cases hps : listMaxInt ps with
        | none => exact ⟨a, by simp [listMaxInt, hps], le_refl a⟩
        | some m => exact ⟨max a m, by simp [listMaxInt, hps], le_max_left a m⟩
      · obtain ⟨m, hm1, hm2⟩ := ih hm
        exact ⟨max p m, by simp [listMaxInt, hm1], le_trans hm2 (le_max_right p m)⟩

theorem nextPosition_gt {st : DBState} {sid : String} {t : QueueTrack}
    (ht : t ∈ st.queueTracks) (hsid : t.sessionId = sid) :
    t.position < nextPosition st sid := by
  have hmem : t.position ∈ (st.queueTracks.filter
      (fun x => x.sessionId == sid)).map (fun x => x.position) := by
    apply List.mem_map_of_mem
    apply List.mem_filter.mpr
    refine ⟨ht, ?_⟩
    rw [hsid]
    simp
  obtain ⟨m, hm1, hm2⟩ := listMaxInt_ge hmem
  unfold nextPosition
  rw [hm1]
  show t.position < m + 1
  omega

/-- C4 (amended): add-to-queue assigns one more than the maximum position
among the rows the session holds at that moment (or 0 when it holds none), so
the new position is strictly greater than every position currently present in
the session; positions of rows deleted before the add are not covered and can
be reused. -/
theorem c4_position_monotone_current :
    ∀ st callerId callerName sid tr freshId s,
      findSession st sid = some s →
      freshId ∉ st.queueTracks.map (fun t => t.id) →
      ∃ row, findTrack (addToQueue st callerId callerName sid tr freshId).state freshId
          = some row
        ∧ row.position = nextPosition st sid
        ∧ row.sessionId = sid
        ∧ ∀ t ∈ st.queueTracks, t.sessionId = sid → t.position < row.position := by
  intro st callerId callerName sid tr freshId s hs hfresh
  have hnone : st.queueTracks.find? (fun t => t.id == freshId) = none := by
    apply List.find?_eq_none.mpr
    intro x hx hbeq
    exact hfresh (beq_iff_eq.mp hbeq ▸ List.mem_map_of_mem (fun t => t.id) hx)
  simp only [addToQueue, hs]
  split <;> split <;> (try split) <;>
    exact ⟨_, by
        unfold findTrack
        first
        | (rw [find?_id_after_update _ _ (fun t => { t with isCurrent := true })
              (fun t => rfl), List.find?_append, hnone]
           simp [List.find?_cons]
           exact rfl)
        | (rw [List.find?_append, hnone]
           simp [List.find?_cons]
           exact rfl),
      rfl, rfl, fun t ht h2 => nextPosition_gt ht h2⟩

/-- C4 witness: the add that closes the replay (after a deletion) still sits
strictly above every position currently present in the session. -/
theorem c4_witness :
    ∃ row, findTrack (addToQueue runC4c "u1" "u" "s" (trkIn "T3") "q3").state "q3"
        = some row
      ∧ row.position = nextPosition runC4c "s"
      ∧ row.sessionId = "s"
      ∧ ∀ t ∈ runC4c.queueTracks, t.sessionId = "s" → t.position < row.position :=
  c4_position_monotone_current runC4c "u1" "u" "s" (trkIn "T3") "q3"
    { id := "s", hostId := "h", roomMode := "campfire" } (by decide) (by decide)

/-! ### Ordered-queue membership -/

theorem insertByPos_perm (t : QueueTrack) (l : List QueueTrack) :
    (insertByPos t l).Perm (t :: l) := by
  induction l with
  | nil => exact List.Perm.refl _
  | cons x xs ih =>
      unfold insertByPos
      split
      · exact List.Perm.refl _
      · exact (ih.cons x).trans (List.Perm.swap t x xs)

theorem sortByPos_perm (l : List QueueTrack) : (sortByPos l).Perm l := by
  induction l with
  | nil => exact List.Perm.refl _
  | cons x xs ih =>
      show (insertByPos x (sortByPos xs)).Perm (x :: xs)
      exact (insertByPos_perm x (sortByPos xs)).trans (ih.cons x)

theorem insertVotes_perm (t : QueueTrack) (l : List QueueTrack) :
    (insertVotes t l).Perm (t :: l) := by
  induction l with
  | nil => exact List.Perm.refl _
  | cons x xs ih =>
      unfold insertVotes
      split
      · exact (ih.cons x).trans (List.Perm.swap t x xs)
      · exact List.Perm.refl _

theorem sortVotes_perm (l : List QueueTrack) : (sortVotes l).Perm l := by
  induction l with
  | nil => exact List.Perm.refl _
  | cons x xs ih =>
      show (insertVotes x (sortVotes xs)).Perm (x :: xs)
      exact (insertVotes_perm x (sortVotes xs)).trans (ih.cons x)

theorem mem_roundAt {qs : List (List α)} {r : Nat} {a : α} (h : a ∈ roundAt qs r) :
    ∃ q ∈ qs, a ∈ q := by
  obtain ⟨q, hq, hq2⟩ := List.mem_filterMap.mp h
  obtain ⟨hlt, hget⟩ := List.getElem?_eq_some.mp hq2
  exact ⟨q, hq, hget ▸ List.getElem_mem hlt⟩

theorem mem_roundsFrom {qs : List (List α)} {a : α} :
    ∀ {r n : Nat}, a ∈ roundsFrom qs r n → ∃ q ∈ qs, a ∈ q := by
  intro r n
  induction n generalizing r with
  | zero => intro h; cases h
  | succ n ih =>
      intro h
      rcases List.mem_append.mp h with h1 | h2
      · exact mem_roundAt h1
      · exact ih h2

theorem mem_campfireOrder {rows : List QueueTrack} {t : QueueTrack}
    (h : t ∈ campfireOrder rows) : t ∈ rows := by
  obtain ⟨q, hq, hq2⟩ := mem_roundsFrom h
  obtain ⟨uid, _, rfl⟩ := List.mem_map.mp hq
  exact List.mem_of_mem_filter hq2

theorem mem_getOrderedQueue {st : DBState} {sid : String} {t : QueueTrack}
    (h : t ∈ getOrderedQueue st sid) :
    t ∈ st.queueTracks ∧ t.sessionId = sid ∧ t.isCurrent = false
      ∧ t.status = "approved" := by
  have happ : t ∈ approvedRows st sid := by
    simp only [getOrderedQueue] at h
    split at h
    · exact mem_campfireOrder h
    · split at h
      · exact (sortVotes_perm _).mem_iff.mp h
      · exact h
  unfold approvedRows at happ
  have hmem := (sortByPos_perm _).mem_iff.mp happ
  have h2 := List.mem_filter.mp hmem
  have h3 := h2.2
  simp only [Bool.and_eq_true, beq_iff_eq, Bool.not_eq_true'] at h3
  exact ⟨h2.1, h3.1.1, h3.1.2, h3.2⟩

theorem find?_eq_of_mem_nodup {l : List QueueTrack} {t : QueueTrack} {tid : String}
    (hnd : (l.map (fun x => x.id)).Nodup) (ht : t ∈ l) (hid : t.id = tid) :
    l.find? (fun x => x.id == tid) = some t := by
  induction l with
  | nil => cases ht
  | cons p ps ih =>
      rw [List.map_cons, List.nodup_cons] at hnd
      rcases List.mem_cons.mp ht with rfl | hmem
      · rw [List.find?_cons]
        simp [hid]
      · have hpid : (p.id == tid) = false := by
          apply beq_eq_false_iff_ne.mpr
          intro hEq
          apply hnd.1
          rw [hEq, ← hid]
          exact List.mem_map_of_mem (fun x => x.id) hmem
        rw [List.find?_cons]
        simp only [hpid]
        exact ih hnd.2 hmem

/-! ### Playback map lemmas -/

theorem getPlayback_delPlayback (pb : List (String × PlaybackState)) (sid : String) :
    getPlayback (delPlayback pb sid) sid = none := by
  have h : (pb.filter (fun p => p.1 != sid)).find? (fun p => p.1 == sid) = none := by
    apply List.find?_eq_none.mpr
    intro x hx
    have h2 := (List.mem_filter.mp hx).2
    simp only [bne_iff_ne, ne_eq] at h2
    simp [h2]
  unfold getPlayback delPlayback
  rw [h]
  rfl

theorem getPlayback_setPlayback (pb : List (String × PlaybackState)) (sid : String)
    (ps : PlaybackState) : getPlayback (setPlayback pb sid ps) sid = some ps := by
  unfold getPlayback setPlayback
  split
  · next hany =>
      induction pb with
      | nil => cases hany
      | cons p pbs ih =>
          rw [List.map_cons]
          by_cases hp : (p.1 == sid) = true
          · rw [if_pos hp, List.find?_cons]
            simp
          · rw [if_neg hp, List.find?_cons]
            simp only [hp]
            rw [List.any_cons] at hany
            have hp2 : (p.1 == sid) = false := by simpa using hp
            rw [hp2, Bool.false_or] at hany
            exact ih hany
  · next hany =>
      have hnone : pb.find? (fun p => p.1 == sid) = none := by
        apply List.find?_eq_none.mpr
        intro x hx
        have := List.any_eq_false.mp (Bool.eq_false_iff.mpr hany) x hx
        simpa using this
      rw [List.find?_append, hnone]
      simp

theorem idsNodup_filter {st : DBState} (p : QueueTrack → Bool) (h : IdsNodup st) :
    ((st.queueTracks.filter p).map (fun t => t.id)).Nodup :=
  List.Nodup.sublist
    (List.Sublist.map (fun t : QueueTrack => t.id) (List.filter_sublist _)) h

/-- C9: skip-track and track-ended delete the session's current rows outright
and promote the head of the mode-ordered queue (computed after the deletion)
to current, setting the playback clock to playing at position 0 with the new
track id; when the ordered queue is empty the session is left idle: the first
broadcast is a track-changed carrying an explicit null and the playback entry
is removed. track-ended always advances, and skip-track advances identically
whenever the session is not in spotlight mode or the caller is the host. -/
theorem c9_advance_track :
    ∀ st sid now,
      (advanceTrack st sid now).state.sessions = st.sessions
      ∧ (getOrderedQueue (removeCurrent st sid) sid = [] →
          (advanceTrack st sid now).state.queueTracks
              = (removeCurrent st sid).queueTracks
          ∧ getPlayback (advanceTrack st sid now).state.playback sid = none
          ∧ (advanceTrack st sid now).emits.head?
              = some (Emit.toRoom sid (Msg.trackChanged none))
          ∧ (advanceTrack st sid now).fault = none)
      ∧ (∀ next rest,
          IdsNodup st →
          getOrderedQueue (removeCurrent st sid) sid = next :: rest →
          (advanceTrack st sid now).state.queueTracks
              = (removeCurrent st sid).queueTracks.map
                  (fun t => if t.id == next.id then { t with isCurrent := true } else t)
          ∧ getPlayback (advanceTrack st sid now).state.playback sid
              = some { state := "playing", position := 0, timestamp := now
                       trackId := some next.id }
          ∧ (advanceTrack st sid now).emits.head?
              = some (Emit.toRoom sid (Msg.trackChanged (some { next with isCurrent := true })))
          ∧ (advanceTrack st sid now).fault = none)
      ∧ trackEnded st sid now = advanceTrack st sid now
      ∧ (∀ callerId s, findSession st sid = some s →
          (s.roomMode ≠ "spotlight" ∨ s.hostId = callerId) →
          skipTrack st callerId sid now = advanceTrack st sid now) := by
  intro st sid now
  refine ⟨?_, ?_, ?_, rfl, ?_⟩
  · simp only [advanceTrack]
    split <;> (try split) <;> rfl
  · intro hq
    refine ⟨?_, ?_, ?_, ?_⟩ <;>
      simp only [advanceTrack, hq, List.head?_nil, List.head?_cons]
    exact getPlayback_delPlayback _ sid
  · intro next rest hnd hq
    have hmemq : next ∈ getOrderedQueue (removeCurrent st sid) sid := by
      rw [hq]
      exact List.mem_cons_self next rest
    have hmem : next ∈ (removeCurrent st sid).queueTracks :=
      (mem_getOrderedQueue hmemq).1
    have hnd1 : ((removeCurrent st sid).queueTracks.map (fun t => t.id)).Nodup :=
      idsNodup_filter _ hnd
    have hfind : (removeCurrent st sid).queueTracks.find?
        (fun t => t.id == next.id) = some next :=
      find?_eq_of_mem_nodup hnd1 hmem rfl
    have hfind2 : findTrack { removeCurrent st sid with queueTracks := (removeCurrent st sid).queueTracks.map (fun t => if t.id == next.id then { t with isCurrent := true } else t) } next.id = some { next with isCurrent := true } := by
      unfold findTrack
      rw [find?_id_after_update _ _ (fun t => { t with isCurrent := true })
        (fun t => rfl), hfind]
      simp
    refine ⟨?_, ?_, ?_, ?_⟩ <;>
      simp only [advanceTrack, hq, List.head?_cons, hfind2, formatQueueTrack]
    exact getPlayback_setPlayback _ sid _
  · intro callerId s hs hcond
    have hguard : (s.roomMode == "spotlight" && s.hostId != callerId) = false := by
      rcases hcond with h1 | h1
      · simp [beq_eq_false_iff_ne.mpr h1]
      · simp [h1]
    simp [skipTrack, hs, hguard]

/-- C9 witness: advancing session a of stateCross (whose queue is empty) goes
idle and clears the playback entry; advancing the replay state runC4d promotes
q3 and stamps a playing clock at position 0. -/
theorem c9_witness :
    getPlayback (advanceTrack stateCross "a" 5).state.playback "a" = none
    ∧ getPlayback (advanceTrack runC4d "s" 7).state.playback "s"
        = some { state := "playing", position := 0, timestamp := 7, trackId := some "q3" } :=
  ⟨((c9_advance_track stateCross "a" 5).2.1 (by decide)).2.1,
   ((c9_advance_track runC4d "s" 7).2.2.1
     { mkTrack "q3" "s" "u1" 1 "approved" false 0 [] with title := "T3", addedByUsername := "u" }
     [] (by unfold IdsNodup; decide) (by decide)).2.1⟩

/-- C8 witness: a fresh up-vote toggled off again on a track with no prior
votes restores the empty map and zero total. -/
theorem c8_witness :
    ∃ tr2, findTrack (voteTrack (voteTrack stateCross "u1" "b" "t1"
        (JsVal.num 1)).state "u1" "b" "t1" (JsVal.num 1)).state "t1" = some tr2
      ∧ tr2.votes = (mkTrack "t1" "b" "g" 0 "approved" false 0 []).votes
      ∧ ∀ k, lookupVote tr2.votedBy k
          = lookupVote (mkTrack "t1" "b" "g" 0 "approved" false 0 []).votedBy k :=
  c8_vote_toggle_and_sum.1 stateCross "u1" "b" "t1" (JsVal.num 1) _ rfl
    (by decide) rfl (Or.inl rfl)

/-! ### Invariant preservation: at most one current row per session -/

theorem countP_id_le_one {l : List QueueTrack}
    (hnd : (l.map (fun t => t.id)).Nodup) (x : String) :
    l.countP (fun t => t.id == x) ≤ 1 := by
  induction l with
  | nil => simp
  | cons p ps ih =>
      rw [List.map_cons, List.nodup_cons] at hnd
      rw [List.countP_cons]
      by_cases hp : (p.id == x) = true
      · have h0 : ps.countP (fun t => t.id == x) = 0 := by
          rw [List.countP_eq_zero]
          intro a ha hax
          apply hnd.1
          have haid : a.id = p.id := by
            rw [beq_iff_eq.mp hax, ← beq_iff_eq.mp hp]
          rw [← haid]
          exact List.mem_map_of_mem (fun t => t.id) ha
        rw [h0, if_pos hp]
      · rw [if_neg hp]
        have := ih hnd.2
        omega

theorem idsMap_update (l : List QueueTrack) (g : QueueTrack → QueueTrack)
    (tid : String) (hg : ∀ t, (g t).id = t.id) :
    (l.map (fun t => if t.id == tid then g t else t)).map (fun t => t.id)
      = l.map (fun t => t.id) := by
  rw [List.map_map]
  apply List.map_congr_left
  intro t ht
  by_cases h2 : (t.id == tid) = true
  · simp [Function.comp, h2, hg]
  · simp [Function.comp, h2]

theorem promote_preserves (l : List QueueTrack) (fid ssid : String)
    (hnd : (l.map (fun t => t.id)).Nodup)
    (htarget : ∀ t ∈ l, t.id = fid → t.sessionId = ssid)
    (hnocur : ∀ t ∈ l, t.sessionId = ssid → t.isCurrent = false)
    (hinv : ∀ sid, l.countP (fun t => t.sessionId == sid && t.isCurrent) ≤ 1) :
    (∀ sid, (l.map (fun t => if t.id == fid then { t with isCurrent := true } else t)).countP
        (fun t => t.sessionId == sid && t.isCurrent) ≤ 1)
    ∧ ((l.map (fun t => if t.id == fid then { t with isCurrent := true } else t)).map
        (fun t => t.id)).Nodup := by
  constructor
  · intro sid
    rw [List.countP_map]
    by_cases hsid : sid = ssid
    · subst hsid
      have hle : l.countP ((fun t => t.sessionId == sid && t.isCurrent)
            ∘ (fun t => if t.id == fid then { t with isCurrent := true } else t))
          ≤ l.countP (fun t => t.id == fid) := by
        apply List.countP_mono_left
        intro t ht hpred
        simp only [Function.comp_apply] at hpred
        by_cases h2 : (t.id == fid) = true
        · exact h2
        · exfalso
          rw [if_neg h2] at hpred
          simp at hpred
          have h5 : t.isCurrent = true := hpred.2
          rw [hnocur t ht hpred.1] at h5
          cases h5
      exact le_trans hle (countP_id_le_one hnd fid)
    · have heq : l.countP ((fun t => t.sessionId == sid && t.isCurrent)
            ∘ (fun t => if t.id == fid then { t with isCurrent := true } else t))
          = l.countP (fun t => t.sessionId == sid && t.isCurrent) := by
        apply List.countP_congr
        intro t ht
        simp only [Function.comp_apply]
        by_cases h2 : (t.id == fid) = true
        · have hts : t.sessionId = ssid := htarget t ht (beq_iff_eq.mp h2)
          have hfalse : (t.sessionId == sid) = false := by
            rw [hts]
            exact beq_eq_false_iff_ne.mpr (fun h => hsid h.symm)
          rw [if_pos h2]
          show (t.sessionId == sid && true) = true ↔ _
          rw [hfalse]
          simp
        · rw [if_neg h2]
      rw [heq]
      exact hinv sid
  · rw [idsMap_update l (fun t => { t with isCurrent := true }) fid (fun t => rfl)]
    exact hnd

theorem update_preserves (l : List QueueTrack) (g : QueueTrack → QueueTrack)
    (tid : String)
    (hg : ∀ t, (g t).id = t.id ∧ (g t).sessionId = t.sessionId
      ∧ (g t).isCurrent = t.isCurrent)
    (hnd : (l.map (fun t => t.id)).Nodup)
    (hinv : ∀ sid, l.countP (fun t => t.sessionId == sid && t.isCurrent) ≤ 1) :
    (∀ sid, (l.map (fun t => if t.id == tid then g t else t)).countP
        (fun t => t.sessionId == sid && t.isCurrent) ≤ 1)
    ∧ ((l.map (fun t => if t.id == tid then g t else t)).map (fun t => t.id)).Nodup := by
  constructor
  · intro sid
    rw [List.countP_map]
    have heq : l.countP ((fun t => t.sessionId == sid && t.isCurrent)
          ∘ (fun t => if t.id == tid then g t else t))
        = l.countP (fun t => t.sessionId == sid && t.isCurrent) := by
      apply List.countP_congr
      intro t ht
      simp only [Function.comp_apply]
      by_cases h2 : (t.id == tid) = true
      · rw [if_pos h2, (hg t).2.1, (hg t).2.2]
      · rw [if_neg h2]
    rw [heq]
    exact hinv sid
  · rw [idsMap_update l g tid (fun t => (hg t).1)]
    exact hnd

theorem append_noncurrent_preserves (l : List QueueTrack) (row : QueueTrack)
    (hnd : (l.map (fun t => t.id)).Nodup)
    (hfresh : row.id ∉ l.map (fun t => t.id))
    (hcur : row.isCurrent = false)
    (hinv : ∀ sid, l.countP (fun t => t.sessionId == sid && t.isCurrent) ≤ 1) :
    (∀ sid, (l ++ [row]).countP (fun t => t.sessionId == sid && t.isCurrent) ≤ 1)
    ∧ ((l ++ [row]).map (fun t => t.id)).Nodup := by
  constructor
  · intro sid
    rw [List.countP_append]
    have h0 : [row].countP (fun t => t.sessionId == sid && t.isCurrent) = 0 := by
      simp [List.countP_cons, hcur]
    rw [h0]
    have := hinv sid
    omega
  · rw [List.map_append, List.nodup_append]
    refine ⟨hnd, List.nodup_singleton _, ?_⟩
    intro a ha hb
    have hab : a = row.id := by simpa using hb
    subst hab
    exact hfresh ha

theorem advanceTrack_state_queueTracks (st : DBState) (sid : String) (now : Nat) :
    (advanceTrack st sid now).state.queueTracks
      = match (getOrderedQueue (removeCurrent st sid) sid).head? with
        | none => (removeCurrent st sid).queueTracks
        | some next => (removeCurrent st sid).queueTracks.map
            (fun t => if t.id == next.id then { t with isCurrent := true } else t) := by
  cases hq : (getOrderedQueue (removeCurrent st sid) sid).head? with
  | none => simp only [advanceTrack, hq]
  | some next =>
      simp only [advanceTrack, hq]
      split <;> rfl

theorem advanceTrack_preserves (st : DBState) (sid : String) (now : Nat)
    (hnd : IdsNodup st) (hinv : AtMostOneCurrent st) :
    AtMostOneCurrent (advanceTrack st sid now).state
    ∧ IdsNodup (advanceTrack st sid now).state := by
  have hsub : (removeCurrent st sid).queueTracks.Sublist st.queueTracks :=
    List.filter_sublist _
  have hnd1 : ((removeCurrent st sid).queueTracks.map (fun t => t.id)).Nodup :=
    idsNodup_filter _ hnd
  have hinv1 : ∀ s2, (removeCurrent st sid).queueTracks.countP
      (fun t => t.sessionId == s2 && t.isCurrent) ≤ 1 :=
    fun s2 => le_trans (List.Sublist.countP_le _ hsub) (hinv s2)
  have hstate := advanceTrack_state_queueTracks st sid now
  cases hq : (getOrderedQueue (removeCurrent st sid) sid).head? with
  | none =>
      rw [hq] at hstate
      constructor
      · intro s2
        show (advanceTrack st sid now).state.queueTracks.countP
          (fun t => t.sessionId == s2 && t.isCurrent) ≤ 1
        rw [hstate]
        exact hinv1 s2
      · show ((advanceTrack st sid now).state.queueTracks.map (fun t => t.id)).Nodup
        rw [hstate]
        exact hnd1
  | some next =>
      rw [hq] at hstate
      have hmemq : next ∈ getOrderedQueue (removeCurrent st sid) sid := by
        cases hl : getOrderedQueue (removeCurrent st sid) sid with
        | nil => rw [hl] at hq; cases hq
        | cons a rest =>
            rw [hl] at hq
            injection hq with h2
            rw [← h2]
            exact List.mem_cons_self a rest
      obtain ⟨hmem, hsid, hcur0, _⟩ := mem_getOrderedQueue hmemq
      have htarget : ∀ t ∈ (removeCurrent st sid).queueTracks,
          t.id = next.id → t.sessionId = sid := by
        intro t ht hid
        have heqt : t = next := List.inj_on_of_nodup_map hnd1 ht hmem hid
        rw [heqt]
        exact hsid
      have hnocur : ∀ t ∈ (removeCurrent st sid).queueTracks,
          t.sessionId = sid → t.isCurrent = false := by
        intro t ht hts
        have h2 := List.mem_filter.mp ht
        have h3 := h2.2
        simp only [Bool.not_eq_true'] at h3
        rw [hts] at h3
        simpa using h3
      obtain ⟨hc, hn⟩ := promote_preserves _ next.id sid hnd1 htarget hnocur hinv1
      constructor
      · intro s2
        show (advanceTrack st sid now).state.queueTracks.countP
          (fun t => t.sessionId == s2 && t.isCurrent) ≤ 1
        rw [hstate]
        exact hc s2
      · show ((advanceTrack st sid now).state.queueTracks.map (fun t => t.id)).Nodup
        rw [hstate]
        exact hn

theorem addToQueue_preserves (st : DBState) (c n sid : String) (tr : TrackInput)
    (fid : String) (hnd : IdsNodup st)
    (hfresh : fid ∉ st.queueTracks.map (fun t => t.id))
    (hinv : AtMostOneCurrent st) :
    AtMostOneCurrent (addToQueue st c n sid tr fid).state
    ∧ IdsNodup (addToQueue st c n sid tr fid).state := by
  cases hs : findSession st sid with
  | none =>
      have hstate : (addToQueue st c n sid tr fid).state = st := by
        simp only [addToQueue, hs]
      rw [hstate]
      exact ⟨hinv, hnd⟩
  | some s =>
      simp only [addToQueue, hs]
      split
      · split
        · next hpro =>
            exact absurd hpro (by simp)
        · next hpro =>
            have hbase := append_noncurrent_preserves st.queueTracks
              ({ id := fid, sessionId := sid, title := tr.title, artist := tr.artist
                 album := tr.album, albumArt := tr.albumArt, previewUrl := tr.previewUrl
                 duration := tr.duration.getD 30, source := tr.source.getD "itunes"
                 sourceId := tr.sourceId, addedById := c, addedByUsername := n
                 votes := 0, votedBy := [], status := "pending"
                 position := nextPosition st sid
                 isCurrent := false } : QueueTrack) hnd hfresh rfl (fun s3 => hinv s3)
            exact ⟨fun s2 => hbase.1 s2, hbase.2⟩
      · split
        · next hpro =>
            have hbase := append_noncurrent_preserves st.queueTracks
              ({ id := fid, sessionId := sid, title := tr.title, artist := tr.artist
                 album := tr.album, albumArt := tr.albumArt, previewUrl := tr.previewUrl
                 duration := tr.duration.getD 30, source := tr.source.getD "itunes"
                 sourceId := tr.sourceId, addedById := c, addedByUsername := n
                 votes := 0, votedBy := [], status := "approved"
                 position := nextPosition st sid
                 isCurrent := false } : QueueTrack) hnd hfresh rfl (fun s3 => hinv s3)
            have hpro2 : ∀ x ∈ st.queueTracks, x.sessionId = sid → x.isCurrent = false := by
              simpa using hpro
            have htarget : ∀ t ∈ st.queueTracks ++
                [({ id := fid, sessionId := sid, title := tr.title, artist := tr.artist
                    album := tr.album, albumArt := tr.albumArt, previewUrl := tr.previewUrl
                    duration := tr.duration.getD 30, source := tr.source.getD "itunes"
                    sourceId := tr.sourceId, addedById := c, addedByUsername := n
                    votes := 0, votedBy := [], status := "approved"
                    position := nextPosition st sid
                    isCurrent := false } : QueueTrack)], t.id = fid → t.sessionId = sid := by
              intro t ht hid
              rcases List.mem_append.mp ht with h1 | h1
              · exact absurd (hid ▸ List.mem_map_of_mem (fun t => t.id) h1) hfresh
              · rw [List.mem_singleton.mp h1]
            have hnocur : ∀ t ∈ st.queueTracks ++
                [({ id := fid, sessionId := sid, title := tr.title, artist := tr.artist
                    album := tr.album, albumArt := tr.albumArt, previewUrl := tr.previewUrl
                    duration := tr.duration.getD 30, source := tr.source.getD "itunes"
                    sourceId := tr.sourceId, addedById := c, addedByUsername := n
                    votes := 0, votedBy := [], status := "approved"
                    position := nextPosition st sid
                    isCurrent := false } : QueueTrack)], t.sessionId = sid → t.isCurrent = false := by
              intro t ht hts
              rcases List.mem_append.mp ht with h1 | h1
              · exact hpro2 t h1 hts
              · rw [List.mem_singleton.mp h1]
            obtain ⟨hc2, hn2⟩ := promote_preserves _ fid sid hbase.2 htarget hnocur hbase.1
            split <;> exact ⟨fun s2 => hc2 s2, hn2⟩
        · next hpro =>
            have hbase := append_noncurrent_preserves st.queueTracks
              ({ id := fid, sessionId := sid, title := tr.title, artist := tr.artist
                 album := tr.album, albumArt := tr.albumArt, previewUrl := tr.previewUrl
                 duration := tr.duration.getD 30, source := tr.source.getD "itunes"
                 sourceId := tr.sourceId, addedById := c, addedByUsername := n
                 votes := 0, votedBy := [], status := "approved"
                 position := nextPosition st sid
                 isCurrent := false } : QueueTrack) hnd hfresh rfl (fun s3 => hinv s3)
            exact ⟨fun s2 => hbase.1 s2, hbase.2⟩

/-- C5: each of the queue-touching events (add-to-queue, vote-track,
skip-track, track-ended, approve-track, reject-track) preserves both the
at-most-one-current-row-per-session invariant and the primary-key uniqueness
of row ids, assuming the freshly generated uuid of an add does not collide
with an existing row id (EventOk). -/
theorem c5_at_most_one_current_preserved :
    ∀ st e, IdsNodup st → EventOk st e → AtMostOneCurrent st →
      AtMostOneCurrent (applyEvent st e).state ∧ IdsNodup (applyEvent st e).state := by
  intro st e hnd hok hinv
  cases e with
  | add c n sid tr fid => exact addToQueue_preserves st c n sid tr fid hnd hok hinv
  | vote c sid tid dir =>
      cases h : findTrack st tid with
      | none =>
          have hstate : (voteTrack st c sid tid dir).state = st := by
            simp only [voteTrack, h]
          show AtMostOneCurrent (voteTrack st c sid tid dir).state
            ∧ IdsNodup (voteTrack st c sid tid dir).state
          rw [hstate]
          exact ⟨hinv, hnd⟩
      | some tr =>
          have hstate : (voteTrack st c sid tid dir).state.queueTracks
              = st.queueTracks.map (fun t => if t.id == tid then
                  ({ t with
                      votes := sumVotes (voteUpdate tr.votedBy c (normalizeDirection dir))
                      votedBy := voteUpdate tr.votedBy c (normalizeDirection dir) }
                    : QueueTrack)
                  else t) := by
            simp only [voteTrack, h]
          obtain ⟨hc, hn⟩ := update_preserves st.queueTracks
            (fun t => ({ t with
                votes := sumVotes (voteUpdate tr.votedBy c (normalizeDirection dir))
                votedBy := voteUpdate tr.votedBy c (normalizeDirection dir) } : QueueTrack))
            tid (fun t => ⟨rfl, rfl, rfl⟩) hnd (fun s2 => hinv s2)
          constructor
          · intro s2
            show (voteTrack st c sid tid dir).state.queueTracks.countP
              (fun t => t.sessionId == s2 && t.isCurrent) ≤ 1
            rw [hstate]
            exact hc s2
          · show ((voteTrack st c sid tid dir).state.queueTracks.map
              (fun t => t.id)).Nodup
            rw [hstate]
            exact hn
  | skip c sid now =>
      cases hs : findSession st sid with
      | none =>
          have heq : applyEvent st (Event.skip c sid now) = advanceTrack st sid now := by
            simp [applyEvent, skipTrack, hs]
          rw [heq]
          exact advanceTrack_preserves st sid now hnd hinv
      | some s =>
          by_cases hg : (s.roomMode == "spotlight" && s.hostId != c) = true
          · have heq : (applyEvent st (Event.skip c sid now)).state = st := by
              simp [applyEvent, skipTrack, hs, hg]
            rw [heq]
            exact ⟨hinv, hnd⟩
          · have hg2 : (s.roomMode == "spotlight" && s.hostId != c) = false := by
              simpa using hg
            have heq : applyEvent st (Event.skip c sid now) = advanceTrack st sid now := by
              simp [applyEvent, skipTrack, hs, hg2]
            rw [heq]
            exact advanceTrack_preserves st sid now hnd hinv
  | ended sid now => exact advanceTrack_preserves st sid now hnd hinv
  | approve sid tid =>
      have hstate : (approveTrack st sid tid).state.queueTracks
          = st.queueTracks.map
              (fun t => if t.id == tid then { t with status := "approved" } else t) := by
        simp only [approveTrack]
        split <;> rfl
      obtain ⟨hc, hn⟩ := update_preserves st.queueTracks
        (fun t => { t with status := "approved" }) tid (fun t => ⟨rfl, rfl, rfl⟩)
        hnd (fun s2 => hinv s2)
      constructor
      · intro s2
        show (approveTrack st sid tid).state.queueTracks.countP
          (fun t => t.sessionId == s2 && t.isCurrent) ≤ 1
        rw [hstate]
        exact hc s2
      · show ((approveTrack st sid tid).state.queueTracks.map (fun t => t.id)).Nodup
        rw [hstate]
        exact hn
  | reject sid tid =>
      constructor
      · intro s2
        show (st.queueTracks.filter (fun t => t.id != tid)).countP
          (fun t => t.sessionId == s2 && t.isCurrent) ≤ 1
        exact le_trans (List.Sublist.countP_le _ (List.filter_sublist _)) (hinv s2)
      · show ((st.queueTracks.filter (fun t => t.id != tid)).map (fun t => t.id)).Nodup
        exact List.Nodup.sublist
          (List.Sublist.map (fun t : QueueTrack => t.id) (List.filter_sublist _)) hnd

/-- C5 witness: advancing session b of stateCross (which promotes t1 to
current) keeps at most one current row per session and keeps row ids unique. -/
theorem c5_witness :
    AtMostOneCurrent (applyEvent stateCross (Event.ended "b" 3)).state
    ∧ IdsNodup (applyEvent stateCross (Event.ended "b" 3)).state :=
  c5_at_most_one_current_preserved stateCross (Event.ended "b" 3)
    (by unfold IdsNodup; decide) trivial
    (fun sid => le_trans (List.countP_le_length _) (by decide))

/-! ### Campfire round-robin fairness -/

theorem mem_of_getElem? {l : List α} {r : Nat} {a : α} (h : l[r]? = some a) :
    a ∈ l := by
  obtain ⟨hlt, hget⟩ := List.getElem?_eq_some.mp h
  exact hget ▸ List.getElem_mem hlt

theorem mem_of_getLast? {l : List α} {a : α} (h : l.getLast? = some a) : a ∈ l := by
  induction l with
  | nil => cases h
  | cons x t ih =>
      cases t with
      | nil =>
          have : x = a := by simpa using h
          rw [this]
          exact List.mem_cons_self a []
      | cons y t2 =>
          rw [List.getLast?_cons_cons] at h
          exact List.mem_cons_of_mem x (ih h)

theorem userOrder_go_nodup (rows : List QueueTrack) :
    ∀ acc : List String, acc.Nodup →
      (rows.foldl (fun acc r =>
        if acc.contains r.addedById then acc else acc ++ [r.addedById]) acc).Nodup := by
  induction rows with
  | nil => intro acc h; exact h
  | cons r rs ih =>
      intro acc h
      rw [List.foldl_cons]
      by_cases hc : (acc.contains r.addedById) = true
      · rw [if_pos hc]
        exact ih acc h
      · rw [if_neg hc]
        apply ih
        rw [List.nodup_append]
        refine ⟨h, List.nodup_singleton _, ?_⟩
        intro a ha hb
        have hab : a = r.addedById := by simpa using hb
        have helem : acc.elem r.addedById = true := List.elem_iff.mpr (hab ▸ ha)
        exact hc helem

theorem userOrder_nodup (rows : List QueueTrack) : (userOrder rows).Nodup :=
  userOrder_go_nodup rows [] List.nodup_nil

theorem sep_groupQueues (rows : List QueueTrack) :
    Sep (fun t => t.addedById) (groupQueues rows) := by
  unfold Sep groupQueues
  rw [List.pairwise_map]
  apply List.Pairwise.imp ?_ (userOrder_nodup rows)
  intro u1 u2 hne a ha b hb
  have ha3 : a.addedById = u1 := beq_iff_eq.mp (List.mem_filter.mp ha).2
  have hb3 : b.addedById = u2 := beq_iff_eq.mp (List.mem_filter.mp hb).2
  show a.addedById ≠ b.addedById
  rw [ha3, hb3]
  exact hne

theorem homog_groupQueues (rows : List QueueTrack) :
    Homog (fun t => t.addedById) (groupQueues rows) := by
  intro q hq a ha b hb
  obtain ⟨uid, _, rfl⟩ := List.mem_map.mp hq
  have ha2 := beq_iff_eq.mp (List.mem_filter.mp ha).2
  have hb2 := beq_iff_eq.mp (List.mem_filter.mp hb).2
  show a.addedById = b.addedById
  rw [ha2, hb2]

theorem goodRun_of_chain {l : List String} (h : List.Chain' (fun a b => a ≠ b) l) :
    goodRun l = true := by
  induction l with
  | nil => rfl
  | cons a t ih =>
      cases t with
      | nil => rfl
      | cons b t2 =>
          unfold goodRun
          have hab : a ≠ b := (List.chain'_cons.mp h).1
          rw [if_neg (fun hc => hab (beq_iff_eq.mp hc))]
          exact ih (List.chain'_cons.mp h).2

theorem goodRun_append_ne {l r : List String}
    (hl : List.Chain' (fun a b => a ≠ b) l) (hr : goodRun r = true)
    (hlr : ∀ a b, l.getLast? = some a → r.head? = some b → a ≠ b) :
    goodRun (l ++ r) = true := by
  induction l with
  | nil => simpa using hr
  | cons x t ih =>
      cases t with
      | nil =>
          cases r with
          | nil => rfl
          | cons b rb =>
              show goodRun (x :: b :: rb) = true
              unfold goodRun
              have hxb : x ≠ b := hlr x b rfl rfl
              rw [if_neg (fun hc => hxb (beq_iff_eq.mp hc))]
              exact hr
      | cons y t2 =>
          show goodRun (x :: ((y :: t2) ++ r)) = true
          rw [List.cons_append]
          unfold goodRun
          have hxy : x ≠ y := (List.chain'_cons.mp hl).1
          rw [if_neg (fun hc => hxy (beq_iff_eq.mp hc))]
          have htail := ih (List.chain'_cons.mp hl).2
            (fun a b ha hb => hlr a b (by rw [List.getLast?_cons_cons]; exact ha) hb)
          simpa using htail

theorem goodRun_append_const {c : String} : ∀ {l r : List String},
    List.Chain' (fun a b => a ≠ b) l → l.getLast? = some c →
    (∀ b ∈ r, b = c) → goodRun (l ++ r) = true := by
  intro l
  induction l with
  | nil => intro r _ hc _; cases hc
  | cons x t ih =>
      intro r hl hc hr
      cases t with
      | nil =>
          have hcx : x = c := by simpa using hc
          cases r with
          | nil => rfl
          | cons b rb =>
              show goodRun (x :: b :: rb) = true
              unfold goodRun
              have hbc : b = c := hr b (List.mem_cons_self b rb)
              rw [if_pos (beq_iff_eq.mpr (hcx.trans hbc.symm))]
              rw [List.all_eq_true]
              intro z hz
              exact beq_iff_eq.mpr ((hr z hz).trans hcx.symm)
      | cons y t2 =>
          show goodRun (x :: ((y :: t2) ++ r)) = true
          rw [List.cons_append]
          unfold goodRun
          have hxy : x ≠ y := (List.chain'_cons.mp hl).1
          rw [if_neg (fun hc2 => hxy (beq_iff_eq.mp hc2))]
          have := ih (List.chain'_cons.mp hl).2
            (by rw [List.getLast?_cons_cons] at hc; exact hc) hr
          simpa using this

theorem roundAt_sep {f : α → String} {qs : List (List α)} (hsep : Sep f qs) (r : Nat) :
    List.Pairwise (fun a b => a ≠ b) ((roundAt qs r).map f) := by
  induction qs with
  | nil => exact List.Pairwise.nil
  | cons q qs ih =>
      rcases hsep with _ | ⟨hq, hqs⟩
      show List.Pairwise _ ((List.filterMap (fun q => q[r]?) (q :: qs)).map f)
      rw [List.filterMap_cons]
      cases hget : q[r]? with
      | none => exact ih hqs
      | some a =>
          rw [List.map_cons]
          apply List.Pairwise.cons
          · intro b hb
            obtain ⟨x, hx, rfl⟩ := List.mem_map.mp hb
            obtain ⟨q2, hq2, hxq2⟩ := mem_roundAt hx
            exact hq q2 hq2 a (mem_of_getElem? hget) x hxq2
          · exact ih hqs

theorem roundAt_empty_mono {qs : List (List α)} {r r2 : Nat}
    (h : roundAt qs r = []) (hr : r ≤ r2) : roundAt qs r2 = [] := by
  unfold roundAt at *
  rw [List.filterMap_eq_nil] at *
  intro q hq
  have h2 := h q hq
  have hlen : q.length ≤ r := by
    by_contra hlt
    push_neg at hlt
    rw [List.getElem?_eq_getElem hlt] at h2
    cases h2
  exact List.getElem?_eq_none (le_trans hlen hr)

theorem roundsFrom_empty {qs : List (List α)} :
    ∀ (n r : Nat), roundAt qs r = [] → roundsFrom qs r n = [] := by
  intro n
  induction n with
  | zero => intro r _; rfl
  | succ n ih =>
      intro r h
      show roundAt qs r ++ roundsFrom qs (r + 1) n = []
      rw [h, List.nil_append]
      exact ih (r + 1) (roundAt_empty_mono h (Nat.le_succ r))

theorem mem_roundsFrom_round {qs : List (List α)} {a : α} :
    ∀ (n r : Nat), a ∈ roundsFrom qs r n → ∃ r2, r ≤ r2 ∧ a ∈ roundAt qs r2 := by
  intro n
  induction n with
  | zero => intro r h; cases h
  | succ n ih =>
      intro r h
      rcases List.mem_append.mp h with h1 | h2
      · exact ⟨r, le_refl r, h1⟩
      · obtain ⟨r2, hr2, hmem⟩ := ih (r + 1) h2
        exact ⟨r2, le_trans (Nat.le_succ r) hr2, hmem⟩

theorem boundary_const {f : α → String} :
    ∀ (qs : List (List α)) (r : Nat) (x y : α),
      Sep f qs → Homog f qs →
      (roundAt qs r).getLast? = some x →
      (roundAt qs (r + 1)).head? = some y →
      f x = f y →
      ∀ r2, r + 1 ≤ r2 → ∀ z ∈ roundAt qs r2, f z = f x := by
  intro qs
  induction qs with
  | nil =>
      intro r x y _ _ hx _ _
      cases hx
  | cons q qs ih =>
      intro r x y hsep hhom hx hy hxy
      rcases hsep with _ | ⟨hq, hqs⟩
      have hhomq : ∀ a ∈ q, ∀ b ∈ q, f a = f b := hhom q (List.mem_cons_self q qs)
      have hhoms : Homog f qs := fun q2 hq2 => hhom q2 (List.mem_cons_of_mem q hq2)
      cases hq1 : q[r + 1]? with
      | some y0 =>
          have hy0 : y = y0 := by
            have hr1 : roundAt (q :: qs) (r + 1) = y0 :: roundAt qs (r + 1) := by
              unfold roundAt
              rw [List.filterMap_cons, hq1]
            rw [hr1] at hy
            injection hy with h2
            exact h2.symm
          have hymem : y ∈ q := hy0 ▸ mem_of_getElem? hq1
          have hlen1 : r + 1 < q.length := (List.getElem?_eq_some.mp hq1).1
          have hqr : q[r]? = some (q.get ⟨r, by omega⟩) := by
            rw [List.getElem?_eq_getElem (by omega : r < q.length)]
            rfl
          have hround : roundAt (q :: qs) r = q.get ⟨r, by omega⟩ :: roundAt qs r := by
            unfold roundAt
            rw [List.filterMap_cons, hqr]
          rw [hround] at hx
          cases htail : roundAt qs r with
          | nil =>
              rw [htail] at hx
              have hxx0 : x = q.get ⟨r, by omega⟩ := by simpa using hx.symm
              have hxq : x ∈ q := by
                rw [hxx0]
                exact List.get_mem q r (by omega)
              intro r2 hr2 z hz
              have hznone : roundAt qs r2 = [] :=
                roundAt_empty_mono htail (by omega)
              have hz2 : z ∈ List.filterMap (fun q2 => q2[r2]?) (q :: qs) := hz
              rw [List.filterMap_cons] at hz2
              cases hg2 : q[r2]? with
              | none =>
                  rw [hg2] at hz2
                  rw [show List.filterMap (fun q2 => q2[r2]?) qs = roundAt qs r2 from rfl,
                    hznone] at hz2
                  cases hz2
              | some w =>
                  rw [hg2] at hz2
                  rw [show List.filterMap (fun q2 => q2[r2]?) qs = roundAt qs r2 from rfl,
                    hznone] at hz2
                  have hzw : z = w := by simpa using hz2
                  have hwq : w ∈ q := mem_of_getElem? hg2
                  rw [hzw]
                  exact hhomq w hwq x hxq
          | cons w ws =>
              rw [htail] at hx
              rw [List.getLast?_cons_cons] at hx
              have hxmem : x ∈ roundAt qs r := by
                rw [htail]
                exact mem_of_getLast? hx
              obtain ⟨q2, hq2, hxq2⟩ := mem_roundAt hxmem
              exact absurd hxy.symm (hq q2 hq2 y hymem x hxq2)
      | none =>
          have hr1 : roundAt (q :: qs) (r + 1) = roundAt qs (r + 1) := by
            unfold roundAt
            rw [List.filterMap_cons, hq1]
          have hqnone : ∀ r2, r + 1 ≤ r2 → q[r2]? = none := by
            intro r2 hr2
            have hlen : q.length ≤ r + 1 := by
              by_contra hlt
              push_neg at hlt
              rw [List.getElem?_eq_getElem hlt] at hq1
              cases hq1
            exact List.getElem?_eq_none (le_trans hlen hr2)
          rw [hr1] at hy
          cases hqr : q[r]? with
          | none =>
              have hround : roundAt (q :: qs) r = roundAt qs r := by
                unfold roundAt
                rw [List.filterMap_cons, hqr]
              rw [hround] at hx
              intro r2 hr2 z hz
              have hz2 : z ∈ roundAt qs r2 := by
                have heq2 : roundAt (q :: qs) r2 = roundAt qs r2 := by
                  unfold roundAt
                  rw [List.filterMap_cons, hqnone r2 hr2]
                rw [heq2] at hz
                exact hz
              exact ih r x y hqs hhoms hx hy hxy r2 hr2 z hz2
          | some x0 =>
              have hround : roundAt (q :: qs) r = x0 :: roundAt qs r := by
                unfold roundAt
                rw [List.filterMap_cons, hqr]
              rw [hround] at hx
              cases htail : roundAt qs r with
              | nil =>
                  exfalso
                  have : roundAt qs (r + 1) = [] :=
                    roundAt_empty_mono htail (Nat.le_succ r)
                  rw [this] at hy
                  cases hy
              | cons w ws =>
                  rw [htail] at hx
                  rw [List.getLast?_cons_cons] at hx
                  have hx2 : (roundAt qs r).getLast? = some x := by
                    rw [htail]
                    exact hx
                  intro r2 hr2 z hz
                  have hz2 : z ∈ roundAt qs r2 := by
                    have heq2 : roundAt (q :: qs) r2 = roundAt qs r2 := by
                      unfold roundAt
                      rw [List.filterMap_cons, hqnone r2 hr2]
                    rw [heq2] at hz
                    exact hz
                  exact ih r x y hqs hhoms hx2 hy hxy r2 hr2 z hz2

theorem goodRun_roundsFrom {f : α → String} {qs : List (List α)}
    (hsep : Sep f qs) (hhom : Homog f qs) :
    ∀ (n r : Nat), goodRun ((roundsFrom qs r n).map f) = true := by
  intro n
  induction n with
  | zero => intro r; rfl
  | succ n ih =>
      intro r
      show goodRun ((roundAt qs r ++ roundsFrom qs (r + 1) n).map f) = true
      rw [List.map_append]
      cases hB : roundsFrom qs (r + 1) n with
      | nil =>
          rw [List.map_nil, List.append_nil]
          exact goodRun_of_chain (List.Pairwise.chain' (roundAt_sep hsep r))
      | cons b bs =>
          have hr1ne : roundAt qs (r + 1) ≠ [] := by
            intro hnil
            rw [roundsFrom_empty n (r + 1) hnil] at hB
            cases hB
          have hbhead : (roundAt qs (r + 1)).head? = some b := by
            cases n with
            | zero => cases hB
            | succ m =>
                have hstep : roundsFrom qs (r + 1) (m + 1)
                    = roundAt qs (r + 1) ++ roundsFrom qs (r + 2) m := rfl
                rw [hstep] at hB
                cases hA1 : roundAt qs (r + 1) with
                | nil => exact absurd hA1 hr1ne
                | cons a1 as1 =>
                    rw [hA1, List.cons_append] at hB
                    injection hB with h1 _
                    rw [h1]
                    rfl
          have hrne : roundAt qs r ≠ [] := by
            intro hnil
            exact hr1ne (roundAt_empty_mono hnil (Nat.le_succ r))
          cases hlast : (roundAt qs r).getLast? with
          | none => exact absurd (List.getLast?_eq_none.mp hlast) hrne
          | some x =>
              by_cases hfb : f x = f b
              · have hconst := boundary_const qs r x b hsep hhom hlast hbhead hfb
                refine @goodRun_append_const (f x) ((roundAt qs r).map f)
                  ((b :: bs).map f) (List.Pairwise.chain' (roundAt_sep hsep r)) ?_ ?_
                · rw [List.getLast?_map, hlast]
                  rfl
                · intro w hw
                  obtain ⟨z, hz, rfl⟩ := List.mem_map.mp hw
                  have hz2 : z ∈ roundsFrom qs (r + 1) n := by
                    rw [hB]
                    exact hz
                  obtain ⟨r2, hr2, hmem⟩ := mem_roundsFrom_round n (r + 1) hz2
                  exact hconst r2 hr2 z hmem
              · refine goodRun_append_ne
                  (List.Pairwise.chain' (roundAt_sep hsep r)) ?_ ?_
                · have hgr := ih (r + 1)
                  rw [hB] at hgr
                  exact hgr
                · intro a2 b2 ha2 hb2
                  rw [List.getLast?_map, hlast] at ha2
                  have ha3 : a2 = f x := by
                    injection ha2 with h3
                    exact h3.symm
                  have hb3 : b2 = f b := by
                    rw [List.map_cons] at hb2
                    injection hb2 with h3
                    exact h3.symm
                  rw [ha3, hb3]
                  exact hfb

theorem roundAt_nonempties (qs : List (List α)) (r : Nat) :
    roundAt (qs.filter (fun q => !q.isEmpty)) r = roundAt qs r := by
  induction qs with
  | nil => rfl
  | cons q qs ih =>
      rw [List.filter_cons]
      by_cases hq : (!q.isEmpty) = true
      · rw [if_pos hq]
        show List.filterMap (fun q2 => q2[r]?) (q :: _) = List.filterMap (fun q2 => q2[r]?) (q :: qs)
        rw [List.filterMap_cons, List.filterMap_cons]
        cases q[r]? with
        | none => exact ih
        | some a =>
            show a :: roundAt (qs.filter (fun q => !q.isEmpty)) r = a :: roundAt qs r
            rw [ih]
      · rw [if_neg hq]
        have hqe : q = [] := by
          cases q with
          | nil => rfl
          | cons _ _ => simp at hq
        subst hqe
        show roundAt (qs.filter (fun q => !q.isEmpty)) r
          = List.filterMap (fun q2 => q2[r]?) ([] :: qs)
        rw [List.filterMap_cons]
        exact ih

theorem roundAt_tails (qs : List (List α)) (r : Nat) :
    roundAt (qs.map List.tail) r = roundAt qs (r + 1) := by
  unfold roundAt
  rw [List.filterMap_map]
  congr 1
  funext q
  show q.tail[r]? = q[r + 1]?
  exact List.getElem?_tail q r

theorem roundsFrom_tails_nonempties (qs : List (List α)) :
    ∀ (n r : Nat), roundsFrom ((qs.filter (fun q => !q.isEmpty)).map List.tail) r n
      = roundsFrom qs (r + 1) n := by
  intro n
  induction n with
  | zero => intro r; rfl
  | succ n ih =>
      intro r
      show roundAt _ r ++ roundsFrom _ (r + 1) n
        = roundAt qs (r + 1) ++ roundsFrom qs (r + 2) n
      rw [roundAt_tails, roundAt_nonempties, ih (r + 1)]

theorem specRounds_eq_roundsFrom : ∀ (n : Nat) (qs : List (List α)),
    specRounds qs n = roundsFrom qs 0 n := by
  intro n
  induction n with
  | zero => intro qs; rfl
  | succ n ih =>
      intro qs
      show (qs.filter (fun q => !q.isEmpty)).filterMap List.head?
          ++ specRounds ((qs.filter (fun q => !q.isEmpty)).map List.tail) n
        = roundAt qs 0 ++ roundsFrom qs 1 n
      have hhead : (qs.filter (fun q => !q.isEmpty)).filterMap List.head? = roundAt qs 0 := by
        have hcongr : (qs.filter (fun q => !q.isEmpty)).filterMap List.head?
            = roundAt (qs.filter (fun q => !q.isEmpty)) 0 := by
          unfold roundAt
          congr 1
          funext q
          exact List.head?_eq_getElem? q
        rw [hcongr, roundAt_nonempties]
      rw [hhead, ih, roundsFrom_tails_nonempties]

theorem campfireOrder_eq_spec (rows : List QueueTrack) :
    campfireOrder rows = roundRobinSpec rows := by
  unfold campfireOrder roundRobinSpec interleave
  rw [specRounds_eq_roundsFrom]

/-- C3: for a session in campfire mode, the computed queue ordering over its
approved non-current tracks equals the round-robin interleaving described by
the spec (group by adder preserving position order, cycle through adders in
first-track order, one track per adder per round, exhausted adders dropping
out of later rounds); consequently the adder sequence of the output never
repeats an adder on two consecutive tracks unless every remaining track is by
that adder; and in the scenario where adder A contributed tracks t1 and t2 and
adder B contributed t3 (position order t1, t2, t3) the output is [t1, t3, t2]. -/
theorem c3_campfire_round_robin (st : DBState) (sid : String) (s : Session)
    (hs : findSession st sid = some s) (hm : s.roomMode = "campfire") :
    getOrderedQueue st sid = roundRobinSpec (approvedRows st sid)
    ∧ goodRun ((getOrderedQueue st sid).map (fun t => t.addedById)) = true
    ∧ (∀ t1 t2 t3, approvedRows st sid = [t1, t2, t3] →
        t2.addedById = t1.addedById → t3.addedById ≠ t1.addedById →
        getOrderedQueue st sid = [t1, t3, t2]) := by
  have hq : getOrderedQueue st sid = campfireOrder (approvedRows st sid) := by
    simp [getOrderedQueue, hs, hm]
  refine ⟨?_, ?_, ?_⟩
  · rw [hq, campfireOrder_eq_spec]
  · rw [hq]
    exact goodRun_roundsFrom (sep_groupQueues _) (homog_groupQueues _)
      (maxRounds (groupQueues (approvedRows st sid))) 0
  · intro t1 t2 t3 hrows h21 h31
    have h13 : t1.addedById ≠ t3.addedById := fun h => h31 h.symm
    have h23 : t2.addedById ≠ t3.addedById := by
      rw [h21]
      exact fun h => h31 h.symm
    have hu : userOrder [t1, t2, t3] = [t1.addedById, t3.addedById] := by
      simp [userOrder, h21, h31]
    have hg : groupQueues [t1, t2, t3] = [[t1, t2], [t3]] := by
      simp [groupQueues, hu, h21, h31, h13, h23]
    rw [hq, hrows]
    show interleave (groupQueues [t1, t2, t3]) = [t1, t3, t2]
    rw [hg]
    rfl

theorem c3_witness :
    getOrderedQueue runC3 "s" = roundRobinSpec (approvedRows runC3 "s")
    ∧ goodRun ((getOrderedQueue runC3 "s").map (fun t => t.addedById)) = true
    ∧ getOrderedQueue runC3 "s"
      = [{ mkTrack "t1" "s" "A" 1 "approved" false 0 [] with title := "T1" },
         { mkTrack "t3" "s" "B" 3 "approved" false 0 [] with title := "T3" },
         { mkTrack "t2" "s" "A" 2 "approved" false 0 [] with title := "T2" }] := by
  have h := c3_campfire_round_robin runC3 "s"
    { id := "s", hostId := "h", roomMode := "campfire" } rfl rfl
  exact ⟨h.1, h.2.1, h.2.2 _ _ _ rfl rfl (by decide)⟩

end FrequenC
